import Mathlib

/-!
# Bloom filter of package `bloomtests`: bit vector and the three backends

Shallow embedding of `src/bloomtests/uint.go` (type `BitSets` with `NewBitSets`,
`Set`, `Unset`, `IsSet`) and of `src/bloomtests/bloom.go`: the Memory backend
(`HashData`, `NewMemoryBloomFilter`, `Put`, `Has`, `Close`, `Store`), the File backend
(`NewFileBloomFilter`, `Store`, `ReloadFileBloomFilter`, `reStore`, `Close`) and the
Remote backend (`NewRedisBloomFilter`, `Put`, `Has`, `redisKey`).

Conventions of the embedding.

* A Go `uint` is a natural number; the arithmetic the code performs on indices
  (`/ 64`, `% 64`, `% len`, `n/64 + 1`) never leaves the 64-bit range, so no
  reduction is needed there.
* An `int64` word is represented by its 64-bit two's-complement pattern, a
  natural number below `2 ^ 64`.  The operators the code applies to words,
  `|`, `^` and `==`, act on the pattern; the shift `1 << bit` is reduced
  modulo `2 ^ 64` as the machine does.
* A Go run-time panic (index out of range, integer divide by zero) is the
  result `none`.
* A method with a slice or pointer receiver that mutates in place returns the
  new state.
* `log.Fatalf`, which ends the process, is the result `none` as well.
* The files and the Redis server are explicit state: a map from paths to contents and a
  map from keys to lists, passed to and returned by the operations that use them.
* The library calls of the File backend are the parameter `FileLib`. The persistence
  format itself is inside `encoding/gob` and `compress/gzip`, not in the source; where
  a statement is about that format, it is modelled from the specification (`specFileLib`).
-/

namespace Bloomtests

/-! ## Definitions -/

/-- A byte slice, Go `[]byte`. -/
abbrev Bytes := List UInt8

/-- The vector of words, Go `type BitSets []int64`; each word is given by its 64-bit
pattern. -/
abbrev BitSets := List Nat

/-- The two library functions `HashData` calls: `sha256.Sum256` and the 64-bit
MurmurHash3 with a 32-bit seed (`murmur3.New64WithSeed(seed)`, `Write`, `Sum64`). They
belong to imported packages and are parameters of the development. -/
structure HashLib where
  /-- The digest `sha256.Sum256`. -/
  Sum256 : Bytes → Bytes
  /-- The hash `murmur3.New64WithSeed(seed)` applied to the written bytes. -/
  Sum64WithSeed : Nat → Bytes → Nat

/-- Go `HashData(data, seed)`: digest the data, hash the digest with the seed truncated
to `uint32`, and convert the 64-bit sum to `uint`. -/
def HashData (lib : HashLib) (data : Bytes) (seed : Nat) : Nat :=
  let sha_data := lib.Sum256 data
  lib.Sum64WithSeed (seed % 2 ^ 32) sha_data % 2 ^ 64

/-- Go `NewBitSets(n)`: `make(BitSets, n/64+1)`, all words zero. -/
def NewBitSets (n : Nat) : BitSets :=
  List.replicate (n / 64 + 1) 0

/-- Go `bs.Set(index)`: `bs[index/64] |= 1 << (index%64)`; panics when the word index is
outside the slice. -/
def BitSets.Set (bs : BitSets) (index : Nat) : Option BitSets :=
  let bit := index % 64
  let index := index / 64
  match bs[index]? with
  | none => none
  | some word => some (bs.set index (word ||| ((1 <<< bit) % 2 ^ 64)))

/-- Go `bs.Unset(index)`: `bs[index/64] ^= 1 << (index%64)`; panics when the word index is
outside the slice. -/
def BitSets.Unset (bs : BitSets) (index : Nat) : Option BitSets :=
  let bit := index % 64
  let index := index / 64
  match bs[index]? with
  | none => none
  | some word => some (bs.set index (word ^^^ ((1 <<< bit) % 2 ^ 64)))

/-- Go `bs.IsSet(index)`: `word := bs[index/64]; return (word | (1 << bit)) == word`;
panics when the word index is outside the slice. -/
def BitSets.IsSet (bs : BitSets) (index : Nat) : Option Bool :=
  let bit := index % 64
  let index := index / 64
  match bs[index]? with
  | none => none
  | some word => some ((word ||| ((1 <<< bit) % 2 ^ 64)) == word)

/-- Go `type MemoryBloomFilter struct { K uint; Bs BitSets }`. -/
structure MemoryBloomFilter where
  /-- The number of hash functions. -/
  K : Nat
  /-- The bit vector. -/
  Bs : BitSets
deriving DecidableEq, Repr

/-- Go `NewMemoryBloomFilter(n, k)`. -/
def NewMemoryBloomFilter (n k : Nat) : MemoryBloomFilter :=
  { K := k, Bs := NewBitSets n }

/-- The body of the loop of `Put`, run for the counter values of the list in order:
`filter.Bs.Set(HashData(data, i) % len)`. The remainder panics when `len` is zero. -/
def MemoryBloomFilter.putLoop (lib : HashLib) (data : Bytes) (len : Nat) :
    List Nat → BitSets → Option BitSets
  | [], bs => some bs
  | i :: rest, bs =>
    if len = 0 then none
    else
      match BitSets.Set bs (HashData lib data i % len) with
      | none => none
      | some bs1 => putLoop lib data len rest bs1

/-- Go `filter.Put(data)`: `len := uint(len(filter.Bs))`, then the loop
`for i := uint(0); i < filter.K; i++`. -/
def MemoryBloomFilter.Put (lib : HashLib) (filter : MemoryBloomFilter) (data : Bytes) :
    Option MemoryBloomFilter :=
  let len := filter.Bs.length
  match MemoryBloomFilter.putLoop lib data len (List.range filter.K) filter.Bs with
  | none => none
  | some bs => some { filter with Bs := bs }

/-- The body of the loop of `Has`, run for the counter values of the list in order:
`if !filter.Bs.IsSet(HashData(data, i) % len) { return false }`, and `return true` after
the loop. -/
def MemoryBloomFilter.hasLoop (lib : HashLib) (data : Bytes) (len : Nat) (bs : BitSets) :
    List Nat → Option Bool
  | [] => some true
  | i :: rest =>
    if len = 0 then none
    else
      match BitSets.IsSet bs (HashData lib data i % len) with
      | none => none
      | some false => some false
      | some true => hasLoop lib data len bs rest

/-- Go `filter.Has(data)`: `len := uint(len(filter.Bs))`, then the loop
`for i := uint(0); i < filter.K; i++` with its early `return false`. -/
def MemoryBloomFilter.Has (lib : HashLib) (filter : MemoryBloomFilter) (data : Bytes) :
    Option Bool :=
  let len := filter.Bs.length
  MemoryBloomFilter.hasLoop lib data len filter.Bs (List.range filter.K)

/-- Go `filter.Close()`: `filter.Bs = nil`. -/
def MemoryBloomFilter.Close (filter : MemoryBloomFilter) : MemoryBloomFilter :=
  { filter with Bs := [] }

/-- Go `filter.Store()` of the Memory backend: an empty body. -/
def MemoryBloomFilter.Store (filter : MemoryBloomFilter) : MemoryBloomFilter :=
  filter

/-- A finite sequence of `Put` calls, in order; a panic of one call ends the run. -/
def MemoryBloomFilter.putAll (lib : HashLib) :
    MemoryBloomFilter → List Bytes → Option MemoryBloomFilter
  | filter, [] => some filter
  | filter, d :: ds =>
    match MemoryBloomFilter.Put lib filter d with
    | none => none
    | some filter1 => putAll lib filter1 ds

/-- The index computed in iteration `i` of the loops of `Put` and `Has`:
`HashData(data, i) % len(filter.Bs)`. -/
def MemoryBloomFilter.probe (lib : HashLib) (filter : MemoryBloomFilter) (data : Bytes)
    (i : Nat) : Nat :=
  HashData lib data i % filter.Bs.length

/-- The number of bits of the vector that are 1: the bit positions of the storage,
`0 .. 64 * len(bs) - 1`, at which `IsSet` answers true. -/
def BitSets.ones (bs : BitSets) : Nat :=
  ((List.range (64 * bs.length)).filter (fun j => BitSets.IsSet bs j == some true)).length

/-- A stand-in for the hash library whose 64-bit sum is `v + seed` whatever the data;
used to evaluate the definitions on concrete inputs. -/
def stubLib (v : Nat) : HashLib :=
  { Sum256 := fun d => d, Sum64WithSeed := fun seed _ => v + seed }

/-- One call on a Memory filter other than `Close`: `Put(data)`, `Has(data)` or
`Store()`. -/
inductive MemoryCall where
  | Put (data : Bytes)
  | Has (data : Bytes)
  | Store
deriving Repr

/-- A finite sequence of `Put`, `Has` and `Store` calls on a Memory filter, in order;
the answer of a `Has` is dropped, a panic of one call ends the run. -/
def MemoryBloomFilter.run (lib : HashLib) :
    MemoryBloomFilter → List MemoryCall → Option MemoryBloomFilter
  | filter, [] => some filter
  | filter, MemoryCall.Put data :: rest =>
    match MemoryBloomFilter.Put lib filter data with
    | none => none
    | some filter1 => run lib filter1 rest
  | filter, MemoryCall.Has data :: rest =>
    match MemoryBloomFilter.Has lib filter data with
    | none => none
    | some _ => run lib filter rest
  | filter, MemoryCall.Store :: rest => run lib (MemoryBloomFilter.Store filter) rest

/-! ### File backend -/

/-- Go `type FileBloomFilter struct { *MemoryBloomFilter; Filename string }`. The embedded
pointer is `none` when it is nil, as in the zero value of the struct. -/
structure FileBloomFilter where
  /-- The embedded `*MemoryBloomFilter`. -/
  MemoryBloomFilter : Option MemoryBloomFilter
  /-- The path of the snapshot. -/
  Filename : String
deriving DecidableEq, Repr

/-- The files that can be opened for reading, by path, with their content. -/
abbrev FileSystem := String → Option Bytes

/-- The library calls of the File backend, parameters of the development: `os.Create`,
`os.IsNotExist`, the gob encoder writing through the gzip writer, `gzip.NewReader`, and
the gob decoder reading through the gzip reader. -/
structure FileLib where
  /-- Whether `os.Create(path)` returns without an error. -/
  Create : FileSystem → String → Bool
  /-- Whether the error of a failed `os.Open(path)` satisfies `os.IsNotExist`. -/
  IsNotExist : FileSystem → String → Bool
  /-- The bytes that `gob.NewEncoder(gzip_writer).Encode(filter)` and the closing of the
  gzip writer leave in the file; `none` when `Encode` returns an error. -/
  Encode : FileBloomFilter → Option Bytes
  /-- Whether `gzip.NewReader` on a file of this content returns without an error. -/
  NewReader : Bytes → Bool
  /-- The call `decoder.Decode(&filter)` on a file of this content: from the value of
  `filter` before the call, its value after the call and whether the error is nil. -/
  Decode : Bytes → FileBloomFilter → FileBloomFilter × Bool

/-- Go `NewFileBloomFilter(filename, n, k)`. -/
def NewFileBloomFilter (filename : String) (n k : Nat) : FileBloomFilter :=
  let memory_filter := NewMemoryBloomFilter n k
  { MemoryBloomFilter := some memory_filter, Filename := filename }

/-- Go `filter.Put(data)` on a `*FileBloomFilter`, the method promoted from the embedded
`*MemoryBloomFilter`; a nil embedded pointer is dereferenced. -/
def FileBloomFilter.Put (lib : HashLib) (filter : FileBloomFilter) (data : Bytes) :
    Option FileBloomFilter :=
  match filter.MemoryBloomFilter with
  | none => none
  | some m =>
    match MemoryBloomFilter.Put lib m data with
    | none => none
    | some m1 => some { filter with MemoryBloomFilter := some m1 }

/-- Go `filter.Has(data)` on a `*FileBloomFilter`, the method promoted from the embedded
`*MemoryBloomFilter`. -/
def FileBloomFilter.Has (lib : HashLib) (filter : FileBloomFilter) (data : Bytes) :
    Option Bool :=
  match filter.MemoryBloomFilter with
  | none => none
  | some m => MemoryBloomFilter.Has lib m data

/-- A finite sequence of `Put` calls on a File filter, in order. -/
def FileBloomFilter.putAll (lib : HashLib) :
    FileBloomFilter → List Bytes → Option FileBloomFilter
  | filter, [] => some filter
  | filter, d :: ds =>
    match FileBloomFilter.Put lib filter d with
    | none => none
    | some filter1 => putAll lib filter1 ds

/-- Go `(filter *FileBloomFilter).Store()`: `os.Create(filter.Filename)`, then
`encoder.Encode(filter)` through the gzip writer; either error is `log.Fatalf`, the result
`none`. On success the file at `filter.Filename` holds the encoding. -/
def FileBloomFilter.Store (io : FileLib) (fs : FileSystem) (filter : FileBloomFilter) :
    Option FileSystem :=
  if io.Create fs filter.Filename then
    match io.Encode filter with
    | none => none
    | some content => some (fun path => if path = filter.Filename then some content else fs path)
  else none

/-- Go `ReloadFileBloomFilter(filename)`: a failed `os.Open` is `log.Fatalf`; the error of
`gzip.NewReader` is dropped, and the nil reader it leaves panics at its first use; the
error of `decoder.Decode(&filter)` is dropped and `&filter` is returned, `filter` being
declared by `var filter FileBloomFilter`. -/
def ReloadFileBloomFilter (io : FileLib) (fs : FileSystem) (filename : String) :
    Option FileBloomFilter :=
  match fs filename with
  | none => none
  | some content =>
    if io.NewReader content then
      let filter : FileBloomFilter := { MemoryBloomFilter := none, Filename := "" }
      some (io.Decode content filter).1
    else none

/-- Go `(filter *FileBloomFilter).reStore()`: a failed `os.Open` returns when the file does
not exist and is `log.Fatalf` otherwise; an error of `gzip.NewReader` or of
`decoder.Decode(filter)` is `log.Fatalf`. -/
def FileBloomFilter.reStore (io : FileLib) (fs : FileSystem) (filter : FileBloomFilter) :
    Option FileBloomFilter :=
  match fs filter.Filename with
  | none => if io.IsNotExist fs filter.Filename then some filter else none
  | some content =>
    if io.NewReader content then
      match io.Decode content filter with
      | (filter1, true) => some filter1
      | (_, false) => none
    else none

/-- Go `(filter *FileBloomFilter).Close()`: `filter.Store()`, then `filter.Bs = nil`. -/
def FileBloomFilter.Close (io : FileLib) (fs : FileSystem) (filter : FileBloomFilter) :
    Option (FileSystem × FileBloomFilter) :=
  match FileBloomFilter.Store io fs filter with
  | none => none
  | some fs1 =>
    match filter.MemoryBloomFilter with
    | none => none
    | some m => some (fs1, { filter with MemoryBloomFilter := some { m with Bs := [] } })

/-- A stand-in for the file library whose encoder writes the two bytes 31, 139 and whose
decoder answers the filter `stored`, without an error, on a content of two bytes, and
fails without touching its target on any other content. -/
def stubFileLib (stored : FileBloomFilter) : FileLib :=
  { Create := fun _ _ => true
    IsNotExist := fun _ _ => false
    Encode := fun _ => some [31, 139]
    NewReader := fun content => decide (0 < content.length)
    Decode := fun content target =>
      if content.length = 2 then (stored, true) else (target, false) }

/-- The File filter of 128 bits and 2 hash functions named `bl.gob`, with bits 0 and 2
at 1; used to evaluate the definitions on concrete inputs. -/
def sampleFile : FileBloomFilter :=
  { MemoryBloomFilter := some { K := 2, Bs := [5, 0, 0] }, Filename := "bl.gob" }

/-! ### The persistence format, modelled from the spec

The encoder and the decoder (`encoding/gob`) and the compression (`compress/gzip`) belong
to imported packages and are not in the source. The definitions below follow the
description of the format in the specification: "a compressed byte stream whose
decompressed payload is a self-describing encoding of {k: unsigned integer, n (implicit
via word count): sequence of 64-bit words}". -/

/-- Modelled from the spec: the encoding of one 64-bit unsigned value, missing from the
source (it is inside `encoding/gob`); here its 8 bytes, least significant first. -/
def le64 (v : Nat) : Bytes :=
  (List.range 8).map (fun i => UInt8.ofNat (v / 256 ^ i % 256))

/-- Modelled from the spec: the value that bytes write, least significant first; the
decoding of one unsigned value, missing from the source. -/
def fromLe (bs : Bytes) : Nat :=
  bs.foldr (fun b acc => b.toNat + 256 * acc) 0

/-- Modelled from the spec: the encoding of the "sequence of 64-bit words", missing from
the source; the words one after the other, 8 bytes each. -/
def serializeWords (ws : List Nat) : Bytes :=
  ws.flatMap le64

/-- Modelled from the spec: the decoding of the "sequence of 64-bit words", missing from
the source; the number of words is implicit, it is the number of groups of 8 bytes, and
a last group of fewer than 8 bytes is a decoding error. -/
def deserializeWords : Bytes → Option (List Nat)
  | [] => some []
  | b0 :: b1 :: b2 :: b3 :: b4 :: b5 :: b6 :: b7 :: rest =>
    match deserializeWords rest with
    | none => none
    | some ws => some (fromLe [b0, b1, b2, b3, b4, b5, b6, b7] :: ws)
  | _ => none

/-- Modelled from the spec: the payload, "a self-describing encoding of {k: unsigned
integer, n (implicit via word count): sequence of 64-bit words}", missing from the source;
`K` first, then the words. -/
def serialize (m : MemoryBloomFilter) : Bytes :=
  le64 m.K ++ serializeWords m.Bs

/-- Modelled from the spec: the decoding of the payload into the Filter State
"(k, n, bit-vector words)", missing from the source; `none` is a decoding error. -/
def deserialize : Bytes → Option MemoryBloomFilter
  | b0 :: b1 :: b2 :: b3 :: b4 :: b5 :: b6 :: b7 :: rest =>
    match deserializeWords rest with
    | none => none
    | some ws => some { K := fromLe [b0, b1, b2, b3, b4, b5, b6, b7], Bs := ws }
  | _ => none

/-- Modelled from the spec: the step "compresses it" of `Store`, missing from the source
(it is `compress/gzip`); a general-purpose compression, here run-length: each run of at
most 255 equal bytes becomes its length and the byte. -/
def rleEncode : Bytes → Bytes
  | [] => []
  | b :: rest =>
    match rleEncode rest with
    | c :: b1 :: tail =>
      if b1 = b ∧ c.toNat < 255 then UInt8.ofNat (c.toNat + 1) :: b :: tail
      else 1 :: b :: c :: b1 :: tail
    | _ => [1, b]

/-- Modelled from the spec: the step "decompresses" of `Reload`, missing from the source;
`none` when the stream is not a sequence of pairs of a length and a byte. -/
def rleDecode : Bytes → Option Bytes
  | [] => some []
  | [_] => none
  | c :: b :: tail =>
    match rleDecode tail with
    | none => none
    | some rest => some (List.replicate c.toNat b ++ rest)

/-- Modelled from the spec: what `Store` writes, "serializes the current Filter State,
compresses it"; the encoder is missing from the source. A filter without a Memory filter
has no state to serialize, an error. -/
def specEncode (filter : FileBloomFilter) : Option Bytes :=
  match filter.MemoryBloomFilter with
  | none => none
  | some m => some (rleEncode (serialize m))

/-- Modelled from the spec: what `Reload` reads, "decompresses, decodes the Filter State
(k, n, bit-vector words) into a new filter instance"; the decoder is missing from the
source. The file name is not part of the Filter State and stays the one of the target.
On an error the target is left as it was. -/
def specDecode (content : Bytes) (target : FileBloomFilter) : FileBloomFilter × Bool :=
  match rleDecode content with
  | none => (target, false)
  | some payload =>
    match deserialize payload with
    | none => (target, false)
    | some m => ({ target with MemoryBloomFilter := some m }, true)

/-- Modelled from the spec: the file library with the persistence format above for the
missing encoder, decoder and compression; the compressed stream is accepted when it
decompresses. The two answers of the operating system stay parameters. -/
def specFileLib (create notExist : FileSystem → String → Bool) : FileLib :=
  { Create := create
    IsNotExist := notExist
    Encode := specEncode
    NewReader := fun content => (rleDecode content).isSome
    Decode := specDecode }

/-! ### Remote backend -/

/-- The lists held by the Redis server, by key. A key that holds no list has the empty
list: Redis removes a list when it becomes empty. -/
abbrev RedisStore := String → List String

/-- Redis `LLEN key`: the length of the list, 0 for a key that holds none. -/
def RedisStore.LLEN (store : RedisStore) (key : String) : Nat :=
  (store key).length

/-- Redis `DEL key`. -/
def RedisStore.DEL (store : RedisStore) (key : String) : RedisStore :=
  fun k => if k = key then [] else store k

/-- Redis `LPUSH key v1 v2 ...`: the values are put at the head one after the other; an
error, `none`, when no value is given. -/
def RedisStore.LPUSH (store : RedisStore) (key : String) (values : List String) :
    Option RedisStore :=
  if values.isEmpty then none
  else some (fun k => if k = key then values.reverse ++ store k else store k)

/-- Redis `LSET key index value`: an error, `none`, when the key holds no list or the index
is outside it. -/
def RedisStore.LSET (store : RedisStore) (key : String) (index : Nat) (value : String) :
    Option RedisStore :=
  if index < (store key).length then
    some (fun k => if k = key then (store key).set index value else store k)
  else none

/-- Redis `LINDEX key index`: the element, or the nil reply, `none`, outside the list. -/
def RedisStore.LINDEX (store : RedisStore) (key : String) (index : Nat) : Option String :=
  (store key)[index]?

/-- Go `type RedisBloomFilter struct { cli redis.Conn; N uint; K uint }`; the store the
connection reaches is passed to each operation. -/
structure RedisBloomFilter where
  /-- The number of slots of the row. -/
  N : Nat
  /-- The number of hash functions. -/
  K : Nat
deriving DecidableEq, Repr

/-- Go `filter.redisKey()`: `fmt.Sprintf("_bloomfilter:n%d:k%d", filter.N, filter.K)`. -/
def RedisBloomFilter.redisKey (filter : RedisBloomFilter) : String :=
  "_bloomfilter:n" ++ Nat.repr filter.N ++ ":k" ++ Nat.repr filter.K

/-- Go `NewRedisBloomFilter(cli, n, k)`: when `LLEN` of the key differs from `n`, `DEL` the
key and `LPUSH` the `n` nil values of `make([]interface{}, n)`, which the client sends as
empty strings; the errors of the three commands are dropped. -/
def NewRedisBloomFilter (store : RedisStore) (n k : Nat) : RedisStore × RedisBloomFilter :=
  let filter : RedisBloomFilter := { N := n, K := k }
  let length := store.LLEN filter.redisKey
  if length ≠ n then
    let bs := List.replicate n ""
    let store1 := store.DEL filter.redisKey
    match store1.LPUSH filter.redisKey bs with
    | none => (store1, filter)
    | some store2 => (store2, filter)
  else (store, filter)

/-- The body of the loop of the Remote `Put`, run for the counter values of the list in
order: `LSET key (HashData(data, i) % filter.N) "1"`, an error being `log.Fatalf`. The
remainder panics when `filter.N` is zero. -/
def RedisBloomFilter.putLoop (lib : HashLib) (filter : RedisBloomFilter) (data : Bytes) :
    List Nat → RedisStore → Option RedisStore
  | [], store => some store
  | i :: rest, store =>
    if filter.N = 0 then none
    else
      match store.LSET filter.redisKey (HashData lib data i % filter.N) "1" with
      | none => none
      | some store1 => putLoop lib filter data rest store1

/-- Go `(filter *RedisBloomFilter).Put(data)`: the loop `for i := uint(0); i < filter.K; i++`. -/
def RedisBloomFilter.Put (lib : HashLib) (store : RedisStore) (filter : RedisBloomFilter)
    (data : Bytes) : Option RedisStore :=
  RedisBloomFilter.putLoop lib filter data (List.range filter.K) store

/-- The body of the loop of the Remote `Has`, run for the counter values of the list in
order: `LINDEX key (HashData(data, i) % filter.N)` read by `redis.String`, whose error on
the nil reply is `log.Fatalf`; `return false` when the value is not `"1"`, and
`return true` after the loop. -/
def RedisBloomFilter.hasLoop (lib : HashLib) (store : RedisStore) (filter : RedisBloomFilter)
    (data : Bytes) : List Nat → Option Bool
  | [] => some true
  | i :: rest =>
    if filter.N = 0 then none
    else
      let index := HashData lib data i % filter.N
      match store.LINDEX filter.redisKey index with
      | none => none
      | some value =>
        if value ≠ "1" then some false
        else hasLoop lib store filter data rest

/-- Go `(filter *RedisBloomFilter).Has(data)`: the loop `for i := uint(0); i < filter.K; i++`
with its early `return false`. -/
def RedisBloomFilter.Has (lib : HashLib) (store : RedisStore) (filter : RedisBloomFilter)
    (data : Bytes) : Option Bool :=
  RedisBloomFilter.hasLoop lib store filter data (List.range filter.K)

/-- A finite sequence of Remote `Put` calls through one filter, in order. -/
def RedisBloomFilter.putAll (lib : HashLib) (filter : RedisBloomFilter) :
    RedisStore → List Bytes → Option RedisStore
  | store, [] => some store
  | store, d :: ds =>
    match RedisBloomFilter.Put lib store filter d with
    | none => none
    | some store1 => putAll lib filter store1 ds

/-- A store in which no key holds a list. -/
def emptyStore : RedisStore :=
  fun _ => []

/-- The value of a decimal digit character. -/
def digitVal (c : Char) : Nat :=
  c.toNat - 48

/-- The number a list of decimal digit characters writes. -/
def decimalVal (l : List Char) : Nat :=
  l.foldl (fun v c => 10 * v + digitVal c) 0

/-! ## Evaluation on concrete inputs -/

theorem eval_Set_word_boundary : BitSets.Set (NewBitSets 128) 64 = some [0, 1, 0] := by
  decide

theorem eval_IsSet_word_boundary :
    BitSets.IsSet [0, 1, 0] 64 = some true ∧ BitSets.IsSet [0, 1, 0] 63 = some false ∧
    BitSets.IsSet [0, 1, 0] 192 = none := by
  decide

theorem eval_Set_sign_bit :
    BitSets.Set [0] 63 = some [2 ^ 63] ∧ BitSets.IsSet [2 ^ 63] 63 = some true ∧
    BitSets.IsSet [2 ^ 63] 62 = some false := by
  decide

theorem eval_Put :
    MemoryBloomFilter.Put (stubLib 5) (NewMemoryBloomFilter 128 1) [] =
      some { K := 1, Bs := [4, 0, 0] } := by
  decide

theorem eval_Has :
    MemoryBloomFilter.Has (stubLib 5) { K := 2, Bs := [4, 0, 0] } [] = some false ∧
    MemoryBloomFilter.Has (stubLib 5) { K := 2, Bs := [5, 0, 0] } [] = some true := by
  decide

theorem eval_Put_after_Close :
    MemoryBloomFilter.Put (stubLib 5) (MemoryBloomFilter.Close (NewMemoryBloomFilter 128 1)) [] =
      none := by
  decide

theorem eval_ones : BitSets.ones [5, 0, 1] = 3 := by
  decide

/-- A false positive with a library whose sum ignores the data: after `Put` of one item,
`Has` is true for another one. -/
theorem eval_false_positive :
    MemoryBloomFilter.putAll (stubLib 5) (NewMemoryBloomFilter 128 1) [[1]] =
      some { K := 1, Bs := [4, 0, 0] } ∧
    MemoryBloomFilter.Has (stubLib 5) { K := 1, Bs := [4, 0, 0] } [2] = some true := by
  decide

theorem eval_run :
    MemoryBloomFilter.run (stubLib 5) (NewMemoryBloomFilter 128 2)
      [MemoryCall.Has [1], MemoryCall.Put [1], MemoryCall.Store, MemoryCall.Has [1]] =
      some { K := 2, Bs := [5, 0, 0] } := by
  decide

theorem eval_redisKey :
    RedisBloomFilter.redisKey { N := 2000, K := 5 } = "_bloomfilter:n2000:k5" ∧
    RedisBloomFilter.redisKey { N := 0, K := 10 } = "_bloomfilter:n0:k10" := by
  decide

theorem eval_NewRedisBloomFilter :
    (NewRedisBloomFilter emptyStore 3 1).1 "_bloomfilter:n3:k1" = ["", "", ""] ∧
    (NewRedisBloomFilter emptyStore 3 1).1 "_bloomfilter:n3:k2" = [] ∧
    (NewRedisBloomFilter emptyStore 3 1).2 = { N := 3, K := 1 } := by
  decide

theorem eval_redis_Put_Has :
    (RedisBloomFilter.Put (stubLib 5) (fun _ => ["", "", "", ""]) { N := 4, K := 2 }
      [114]).map (fun store => store "_bloomfilter:n4:k2") = some ["", "1", "1", ""] ∧
    RedisBloomFilter.Has (stubLib 5) (fun _ => ["", "1", "1", ""]) { N := 4, K := 2 } [114] =
      some true ∧
    RedisBloomFilter.Has (stubLib 5) (fun _ => ["", "1", "0", ""]) { N := 4, K := 2 } [114] =
      some false ∧
    (RedisBloomFilter.Put (stubLib 5) emptyStore { N := 4, K := 2 } [114]).isNone = true := by
  decide

theorem eval_le64 :
    le64 258 = [2, 1, 0, 0, 0, 0, 0, 0] ∧ fromLe [2, 1, 0, 0, 0, 0, 0, 0] = 258 := by
  decide

theorem eval_rle :
    rleEncode [0, 0, 0, 5, 5, 1] = [3, 0, 2, 5, 1, 1] ∧
    rleDecode [3, 0, 2, 5, 1, 1] = some [0, 0, 0, 5, 5, 1] ∧
    rleDecode [3, 0, 2] = none := by
  decide

/-- The content of the file for the filter `{K = 2, Bs = [5, 0, 0]}`: the payload of 32
bytes compresses to 8 bytes, and decodes to the filter. -/
theorem eval_specEncode :
    specEncode sampleFile = some [1, 2, 7, 0, 1, 5, 23, 0] ∧
    (specDecode [1, 2, 7, 0, 1, 5, 23, 0] { MemoryBloomFilter := none, Filename := "" }).1 =
      { MemoryBloomFilter := some { K := 2, Bs := [5, 0, 0] }, Filename := "" } ∧
    (specDecode [1, 2, 7, 0, 1, 5, 22, 0] { MemoryBloomFilter := none, Filename := "" }) =
      ({ MemoryBloomFilter := none, Filename := "" }, false) := by
  decide

theorem eval_Store_Reload :
    (FileBloomFilter.Store (stubFileLib sampleFile) (fun _ => none) sampleFile).map
      (fun fs => fs "bl.gob") = some (some [31, 139]) ∧
    ReloadFileBloomFilter (stubFileLib sampleFile) (fun _ => none) "bl.gob" = none ∧
    ReloadFileBloomFilter (stubFileLib sampleFile) (fun _ => some []) "bl.gob" = none := by
  decide

/-- The run of C2 with a library whose 64-bit sum is 17612810855491046162, the value that
SHA-256 followed by MurmurHash3 (x64, seed 0) gives for the two bytes of "r0": the
remainder modulo 128 is 18, the bit that is set is bit 2. -/
theorem eval_Put_r0 :
    HashData (stubLib 17612810855491046162) [114, 48] 0 % 128 = 18 ∧
    MemoryBloomFilter.Put (stubLib 17612810855491046162) (NewMemoryBloomFilter 128 1)
      [114, 48] = some { K := 1, Bs := [4, 0, 0] } ∧
    BitSets.IsSet [4, 0, 0] 18 = some false ∧ BitSets.IsSet [4, 0, 0] 2 = some true := by
  decide

/-! ## Bit-level lemmas -/

theorem shl_one_mod (bit : Nat) (h : bit < 64) : (1 <<< bit) % 2 ^ 64 = 2 ^ bit := by
  rw [Nat.one_shiftLeft]
  exact Nat.mod_eq_of_lt (Nat.pow_lt_pow_right (by norm_num) h)

theorem or_two_pow_eq_iff (w b : Nat) : w ||| 2 ^ b = w ↔ w.testBit b = true := by
  constructor
  · intro h
    have h1 : (w ||| 2 ^ b).testBit b = true := by
      simp [Nat.testBit_or, Nat.testBit_two_pow]
    rwa [h] at h1
  · intro h
    apply Nat.eq_of_testBit_eq
    intro i
    rw [Nat.testBit_or, Nat.testBit_two_pow]
    by_cases hib : b = i
    · subst hib
      simp [h]
    · simp [hib]

theorem testBit_or_two_pow (w b c : Nat) :
    (w ||| 2 ^ b).testBit c = (w.testBit c || decide (b = c)) := by
  rw [Nat.testBit_or, Nat.testBit_two_pow]

theorem testBit_xor_two_pow (w b c : Nat) :
    (w ^^^ 2 ^ b).testBit c = (w.testBit c ^^ decide (b = c)) := by
  rw [Nat.testBit_xor, Nat.testBit_two_pow]

/-- The test of `IsSet` reads bit `index % 64` of word `index / 64`. -/
theorem IsSet_eq (bs : BitSets) (index : Nat) :
    BitSets.IsSet bs index = (bs[index / 64]?).map (fun w => w.testBit (index % 64)) := by
  unfold BitSets.IsSet
  simp only [shl_one_mod _ (Nat.mod_lt index (by norm_num : 64 > 0))]
  cases hw : bs[index / 64]? with
  | none => rfl
  | some w =>
    simp only [Option.map_some']
    congr 1
    by_cases h : w.testBit (index % 64) = true
    · rw [h]
      exact beq_iff_eq.mpr ((or_two_pow_eq_iff _ _).mpr h)
    · have h0 : w.testBit (index % 64) = false := by simpa using h
      rw [h0]
      apply beq_eq_false_iff_ne.mpr
      intro hc
      exact h ((or_two_pow_eq_iff _ _).mp hc)

/-- The assignment of `Set` ors `2 ^ (index % 64)` into word `index / 64`. -/
theorem Set_eq (bs : BitSets) (index : Nat) :
    BitSets.Set bs index =
      (bs[index / 64]?).map (fun w => bs.set (index / 64) (w ||| 2 ^ (index % 64))) := by
  unfold BitSets.Set
  simp only [shl_one_mod _ (Nat.mod_lt index (by norm_num : 64 > 0))]
  cases bs[index / 64]? <;> rfl

/-- The assignment of `Unset` xors `2 ^ (index % 64)` into word `index / 64`. -/
theorem Unset_eq (bs : BitSets) (index : Nat) :
    BitSets.Unset bs index =
      (bs[index / 64]?).map (fun w => bs.set (index / 64) (w ^^^ 2 ^ (index % 64))) := by
  unfold BitSets.Unset
  simp only [shl_one_mod _ (Nat.mod_lt index (by norm_num : 64 > 0))]
  cases bs[index / 64]? <;> rfl

theorem Set_isSome (bs : BitSets) (index : Nat) (h : index / 64 < bs.length) :
    ∃ bs1, BitSets.Set bs index = some bs1 := by
  rw [Set_eq, List.getElem?_eq_getElem h]
  exact ⟨_, rfl⟩

theorem Set_length (bs bs1 : BitSets) (index : Nat) (h : BitSets.Set bs index = some bs1) :
    bs1.length = bs.length := by
  rw [Set_eq] at h
  cases hw : bs[index / 64]? with
  | none => rw [hw] at h; cases h
  | some w =>
    rw [hw] at h
    simp only [Option.map_some', Option.some.injEq] at h
    rw [← h, List.length_set]

theorem index_split (i j : Nat) : i = j ↔ i / 64 = j / 64 ∧ i % 64 = j % 64 := by
  omega

/-- After `Set(i)` the test at `j` answers true when `j = i` and is unchanged otherwise. -/
theorem IsSet_Set (bs bs1 : BitSets) (i j : Nat) (h : BitSets.Set bs i = some bs1) :
    BitSets.IsSet bs1 j = if j = i then some true else BitSets.IsSet bs j := by
  rw [Set_eq] at h
  cases hw : bs[i / 64]? with
  | none => rw [hw] at h; cases h
  | some w =>
    rw [hw] at h
    simp only [Option.map_some', Option.some.injEq] at h
    have hlen : i / 64 < bs.length := by
      rcases List.getElem?_eq_some.mp hw with ⟨hl, -⟩
      exact hl
    subst h
    rw [IsSet_eq, IsSet_eq]
    by_cases hq : j / 64 = i / 64
    · rw [hq, List.getElem?_set_self hlen, hw]
      simp only [Option.map_some']
      rw [testBit_or_two_pow]
      by_cases hr : i % 64 = j % 64
      · have hji : j = i := (index_split j i).mpr ⟨hq, hr.symm⟩
        simp [hr, hji]
      · have hji : j ≠ i := fun hc => hr (by rw [hc])
        simp [hr, hji]
    · have hji : j ≠ i := fun hc => hq (by rw [hc])
      rw [List.getElem?_set_ne (fun hc => hq hc.symm)]
      simp [hji]

/-! ## The loops of `Put` and `Has` -/

/-- On a vector of `len > 0` words the loop of `Put` does not panic, keeps the number of
words, and leaves at 1 exactly the bits that were 1 and the bits at the computed
indices. -/
theorem putLoop_spec (lib : HashLib) (data : Bytes) (len : Nat) (hpos : 0 < len) :
    ∀ (is : List Nat) (bs : BitSets), bs.length = len →
      ∃ bs1, MemoryBloomFilter.putLoop lib data len is bs = some bs1 ∧ bs1.length = len ∧
        ∀ j, BitSets.IsSet bs1 j =
          if ∃ i ∈ is, j = HashData lib data i % len then some true else BitSets.IsSet bs j := by
  intro is
  induction is with
  | nil =>
    intro bs hlen
    exact ⟨bs, rfl, hlen, fun j => by simp⟩
  | cons i rest ih =>
    intro bs hlen
    have hidx : (HashData lib data i % len) / 64 < bs.length := by
      have h1 : HashData lib data i % len < len := Nat.mod_lt _ hpos
      rw [hlen]
      exact lt_of_le_of_lt (Nat.div_le_self _ _) h1
    obtain ⟨bs1, hset⟩ := Set_isSome bs _ hidx
    have hlen1 : bs1.length = len := by rw [Set_length bs bs1 _ hset, hlen]
    obtain ⟨bs2, hloop, hlen2, hbits⟩ := ih bs1 hlen1
    refine ⟨bs2, ?_, hlen2, ?_⟩
    · simp only [MemoryBloomFilter.putLoop, Nat.ne_of_gt hpos, if_false, hset]
      exact hloop
    · intro j
      rw [hbits j, IsSet_Set bs bs1 _ j hset]
      by_cases h1 : ∃ i1 ∈ rest, j = HashData lib data i1 % len
      · have h2 : ∃ i1 ∈ i :: rest, j = HashData lib data i1 % len := by
          obtain ⟨i1, hi1, hj⟩ := h1
          exact ⟨i1, List.mem_cons_of_mem _ hi1, hj⟩
        rw [if_pos h1, if_pos h2]
      · rw [if_neg h1]
        by_cases h3 : j = HashData lib data i % len
        · have h2 : ∃ i1 ∈ i :: rest, j = HashData lib data i1 % len :=
            ⟨i, List.mem_cons_self _ _, h3⟩
          rw [if_pos h3, if_pos h2]
        · have h2 : ¬ ∃ i1 ∈ i :: rest, j = HashData lib data i1 % len := by
            rintro ⟨i1, hi1, hj⟩
            rcases List.mem_cons.mp hi1 with h | h
            · exact h3 (h ▸ hj)
            · exact h1 ⟨i1, h, hj⟩
          rw [if_neg h3, if_neg h2]

/-- On a vector of `len > 0` words the loop of `Has` does not panic and answers true
exactly when every probed bit is 1. -/
theorem hasLoop_spec (lib : HashLib) (data : Bytes) (len : Nat) (hpos : 0 < len)
    (bs : BitSets) (hlen : bs.length = len) :
    ∀ is : List Nat, ∃ b, MemoryBloomFilter.hasLoop lib data len bs is = some b ∧
      (b = true ↔ ∀ i ∈ is, BitSets.IsSet bs (HashData lib data i % len) = some true) := by
  intro is
  induction is with
  | nil => exact ⟨true, rfl, by simp⟩
  | cons i rest ih =>
    obtain ⟨b, hb, hiff⟩ := ih
    have hidx : (HashData lib data i % len) / 64 < bs.length := by
      have h1 : HashData lib data i % len < len := Nat.mod_lt _ hpos
      rw [hlen]
      exact lt_of_le_of_lt (Nat.div_le_self _ _) h1
    have hprobe : BitSets.IsSet bs (HashData lib data i % len) =
        some (bs[(HashData lib data i % len) / 64].testBit ((HashData lib data i % len) % 64)) := by
      rw [IsSet_eq, List.getElem?_eq_getElem hidx]
      rfl
    cases hv : bs[(HashData lib data i % len) / 64].testBit ((HashData lib data i % len) % 64) with
    | false =>
      rw [hv] at hprobe
      refine ⟨false, ?_, ?_⟩
      · simp only [MemoryBloomFilter.hasLoop, Nat.ne_of_gt hpos, if_false, hprobe]
      · constructor
        · intro h; cases h
        · intro h
          have h1 := h i (List.mem_cons_self _ _)
          rw [hprobe] at h1
          cases h1
    | true =>
      rw [hv] at hprobe
      refine ⟨b, ?_, ?_⟩
      · simp only [MemoryBloomFilter.hasLoop, Nat.ne_of_gt hpos, if_false, hprobe]
        exact hb
      · rw [hiff]
        constructor
        · intro h i1 hi1
          rcases List.mem_cons.mp hi1 with h1 | h1
          · rw [h1]; exact hprobe
          · exact h i1 h1
        · intro h i1 hi1
          exact h i1 (List.mem_cons_of_mem _ hi1)

/-- A `Put` on a filter with a non-empty vector does not panic; it keeps `K` and the
number of words, and leaves at 1 exactly the bits that were 1 and the bits at the indices
`HashData(data, i) % len(filter.Bs)` for `i < K`. -/
theorem Put_spec (lib : HashLib) (filter : MemoryBloomFilter) (data : Bytes)
    (hne : filter.Bs ≠ []) :
    ∃ f1, MemoryBloomFilter.Put lib filter data = some f1 ∧ f1.K = filter.K ∧
      f1.Bs.length = filter.Bs.length ∧
      ∀ j, BitSets.IsSet f1.Bs j =
        if ∃ i, i < filter.K ∧ j = HashData lib data i % filter.Bs.length then some true
        else BitSets.IsSet filter.Bs j := by
  have hpos : 0 < filter.Bs.length := List.length_pos.mpr hne
  obtain ⟨bs1, hloop, hlen, hbits⟩ :=
    putLoop_spec lib data filter.Bs.length hpos (List.range filter.K) filter.Bs rfl
  refine ⟨{ filter with Bs := bs1 }, ?_, rfl, hlen, ?_⟩
  · simp only [MemoryBloomFilter.Put, hloop]
  · intro j
    rw [hbits j]
    simp only [List.mem_range]

/-- A `Has` on a filter with a non-empty vector does not panic and answers true exactly
when the bits at the indices `HashData(data, i) % len(filter.Bs)`, `i < K`, are all 1. -/
theorem Has_spec (lib : HashLib) (filter : MemoryBloomFilter) (data : Bytes)
    (hne : filter.Bs ≠ []) :
    ∃ b, MemoryBloomFilter.Has lib filter data = some b ∧
      (b = true ↔ ∀ i, i < filter.K →
        BitSets.IsSet filter.Bs (HashData lib data i % filter.Bs.length) = some true) := by
  have hpos : 0 < filter.Bs.length := List.length_pos.mpr hne
  obtain ⟨b, hb, hiff⟩ :=
    hasLoop_spec lib data filter.Bs.length hpos filter.Bs rfl (List.range filter.K)
  refine ⟨b, hb, ?_⟩
  rw [hiff]
  simp only [List.mem_range]

/-- A run of `Put` calls on a filter with a non-empty vector does not panic; it keeps `K`
and the number of words, and leaves at 1 exactly the bits that were 1 and the bits at the
indices `HashData(d, i) % len(filter.Bs)` for the items `d` of the run and `i < K`. -/
theorem putAll_spec (lib : HashLib) :
    ∀ (ds : List Bytes) (filter : MemoryBloomFilter), filter.Bs ≠ [] →
      ∃ f1, MemoryBloomFilter.putAll lib filter ds = some f1 ∧ f1.K = filter.K ∧
        f1.Bs.length = filter.Bs.length ∧
        ∀ j, BitSets.IsSet f1.Bs j =
          if ∃ d ∈ ds, ∃ i, i < filter.K ∧ j = HashData lib d i % filter.Bs.length
          then some true else BitSets.IsSet filter.Bs j := by
  intro ds
  induction ds with
  | nil =>
    intro filter _
    exact ⟨filter, rfl, rfl, rfl, fun j => by simp⟩
  | cons d rest ih =>
    intro filter hne
    obtain ⟨f1, hput, hK, hlen, hbits⟩ := Put_spec lib filter d hne
    have hne1 : f1.Bs ≠ [] := by
      intro hc
      rw [hc] at hlen
      exact hne (List.length_eq_zero.mp hlen.symm)
    obtain ⟨f2, hall, hK2, hlen2, hbits2⟩ := ih f1 hne1
    refine ⟨f2, ?_, hK2.trans hK, hlen2.trans hlen, ?_⟩
    · simp only [MemoryBloomFilter.putAll, hput]
      exact hall
    · intro j
      rw [hbits2 j, hbits j, hK, hlen]
      by_cases h1 : ∃ d1 ∈ rest, ∃ i, i < filter.K ∧ j = HashData lib d1 i % filter.Bs.length
      · have h2 : ∃ d1 ∈ d :: rest, ∃ i, i < filter.K ∧
            j = HashData lib d1 i % filter.Bs.length := by
          obtain ⟨d1, hd1, hi⟩ := h1
          exact ⟨d1, List.mem_cons_of_mem _ hd1, hi⟩
        rw [if_pos h1, if_pos h2]
      · rw [if_neg h1]
        by_cases h3 : ∃ i, i < filter.K ∧ j = HashData lib d i % filter.Bs.length
        · have h2 : ∃ d1 ∈ d :: rest, ∃ i, i < filter.K ∧
              j = HashData lib d1 i % filter.Bs.length := ⟨d, List.mem_cons_self _ _, h3⟩
          rw [if_pos h3, if_pos h2]
        · have h2 : ¬ ∃ d1 ∈ d :: rest, ∃ i, i < filter.K ∧
              j = HashData lib d1 i % filter.Bs.length := by
            rintro ⟨d1, hd1, hi⟩
            rcases List.mem_cons.mp hd1 with h | h
            · exact h3 (h ▸ hi)
            · exact h1 ⟨d1, h, hi⟩
          rw [if_neg h3, if_neg h2]

theorem NewBitSets_length (n : Nat) : (NewBitSets n).length = n / 64 + 1 := by
  simp [NewBitSets]

theorem NewBitSets_ne_nil (n : Nat) : NewBitSets n ≠ [] := by
  intro hc
  have h := NewBitSets_length n
  rw [hc] at h
  simp at h

/-- After `Unset(i)` the test at `i` answers the opposite of what it answered before, and
the test at any other index is unchanged: the bit is flipped, not cleared. -/
theorem IsSet_Unset (bs bs1 : BitSets) (i j : Nat) (h : BitSets.Unset bs i = some bs1) :
    BitSets.IsSet bs1 j =
      if j = i then (BitSets.IsSet bs i).map (fun b => !b) else BitSets.IsSet bs j := by
  rw [Unset_eq] at h
  cases hw : bs[i / 64]? with
  | none => rw [hw] at h; cases h
  | some w =>
    rw [hw] at h
    simp only [Option.map_some', Option.some.injEq] at h
    have hlen : i / 64 < bs.length := by
      rcases List.getElem?_eq_some.mp hw with ⟨hl, -⟩
      exact hl
    subst h
    simp only [IsSet_eq]
    by_cases hq : j / 64 = i / 64
    · rw [hq, List.getElem?_set_self hlen, hw]
      simp only [Option.map_some']
      rw [testBit_xor_two_pow]
      by_cases hr : i % 64 = j % 64
      · have hji : j = i := (index_split j i).mpr ⟨hq, hr.symm⟩
        rw [if_pos hji]
        simp [hr]
      · have hji : j ≠ i := fun hc => hr (by rw [hc])
        rw [if_neg hji]
        simp [hr]
    · have hji : j ≠ i := fun hc => hq (by rw [hc])
      rw [List.getElem?_set_ne (fun hc => hq hc.symm), if_neg hji]

/-- Every bit of a fresh vector is 0, and `IsSet` panics outside its `n/64 + 1` words. -/
theorem IsSet_NewBitSets (n j : Nat) :
    BitSets.IsSet (NewBitSets n) j = if j / 64 < n / 64 + 1 then some false else none := by
  rw [IsSet_eq]
  unfold NewBitSets
  rw [List.getElem?_replicate]
  by_cases h : j / 64 < n / 64 + 1
  · simp [h]
  · simp [h]

/-- The loop of `Put` is the left fold of `Set` over the indices
`HashData(data, i) % len`, stopping at the first panic. -/
theorem putLoop_eq_foldlM (lib : HashLib) (data : Bytes) (len : Nat) (hpos : 0 < len) :
    ∀ (is : List Nat) (bs : BitSets),
      MemoryBloomFilter.putLoop lib data len is bs =
        is.foldlM (fun b i => BitSets.Set b (HashData lib data i % len)) bs := by
  intro is
  induction is with
  | nil => intro bs; rfl
  | cons i rest ih =>
    intro bs
    simp only [MemoryBloomFilter.putLoop, Nat.ne_of_gt hpos, if_false, List.foldlM_cons]
    cases BitSets.Set bs (HashData lib data i % len) with
    | none => rfl
    | some bs1 => exact ih bs1

theorem countP_or_le {α : Type} (p q : α → Bool) (l : List α) :
    l.countP (fun x => p x || q x) ≤ l.countP p + l.countP q := by
  induction l with
  | nil => simp
  | cons a t ih =>
    simp only [List.countP_cons]
    cases p a <;> cases q a <;> simp <;> omega

/-- One `Set` adds at most one to the number of 1 bits and removes none. -/
theorem Set_ones (bs bs1 : BitSets) (i : Nat) (h : BitSets.Set bs i = some bs1) :
    BitSets.ones bs ≤ BitSets.ones bs1 ∧ BitSets.ones bs1 ≤ BitSets.ones bs + 1 := by
  have hlen := Set_length bs bs1 i h
  unfold BitSets.ones
  rw [hlen, ← List.countP_eq_length_filter, ← List.countP_eq_length_filter]
  constructor
  · apply List.countP_mono_left
    intro x _ hx
    rw [IsSet_Set bs bs1 i x h]
    by_cases hxi : x = i
    · simp [hxi]
    · simpa [hxi] using hx
  · have h1 : List.countP (fun j => BitSets.IsSet bs1 j == some true)
          (List.range (64 * bs.length)) ≤
        List.countP (fun j => (BitSets.IsSet bs j == some true) || (j == i))
          (List.range (64 * bs.length)) := by
      apply List.countP_mono_left
      intro x _ hx
      rw [IsSet_Set bs bs1 i x h] at hx
      by_cases hxi : x = i
      · simp [hxi]
      · simpa [hxi] using hx
    have h2 := countP_or_le (fun j => BitSets.IsSet bs j == some true) (fun j => j == i)
      (List.range (64 * bs.length))
    have h3 : List.countP (fun j => j == i) (List.range (64 * bs.length)) ≤ 1 :=
      List.nodup_iff_count_le_one.mp (List.nodup_range _) i
    omega

/-- The loop of `Put` adds at most one 1 bit per iteration and removes none. -/
theorem putLoop_ones (lib : HashLib) (data : Bytes) (len : Nat) :
    ∀ (is : List Nat) (bs bs1 : BitSets),
      MemoryBloomFilter.putLoop lib data len is bs = some bs1 →
        BitSets.ones bs ≤ BitSets.ones bs1 ∧ BitSets.ones bs1 ≤ BitSets.ones bs + is.length := by
  intro is
  induction is with
  | nil =>
    intro bs bs1 h
    simp only [MemoryBloomFilter.putLoop, Option.some.injEq] at h
    subst h
    simp
  | cons i rest ih =>
    intro bs bs1 h
    simp only [MemoryBloomFilter.putLoop] at h
    by_cases hz : len = 0
    · simp [hz] at h
    · simp only [hz, if_false] at h
      cases hs : BitSets.Set bs (HashData lib data i % len) with
      | none => rw [hs] at h; cases h
      | some bs2 =>
        rw [hs] at h
        have h1 := Set_ones bs bs2 _ hs
        have h2 := ih bs2 bs1 h
        simp only [List.length_cons]
        omega

/-- A completed `Put` keeps `K` and the number of words, on any filter. -/
theorem putLoop_length (lib : HashLib) (data : Bytes) (len : Nat) :
    ∀ (is : List Nat) (bs bs1 : BitSets),
      MemoryBloomFilter.putLoop lib data len is bs = some bs1 → bs1.length = bs.length := by
  intro is
  induction is with
  | nil =>
    intro bs bs1 h
    simp only [MemoryBloomFilter.putLoop, Option.some.injEq] at h
    rw [h]
  | cons i rest ih =>
    intro bs bs1 h
    simp only [MemoryBloomFilter.putLoop] at h
    by_cases hz : len = 0
    · simp [hz] at h
    · simp only [hz, if_false] at h
      cases hs : BitSets.Set bs (HashData lib data i % len) with
      | none => rw [hs] at h; cases h
      | some bs2 =>
        rw [hs] at h
        rw [ih bs2 bs1 h, Set_length bs bs2 _ hs]

theorem Put_keeps (lib : HashLib) (filter f1 : MemoryBloomFilter) (data : Bytes)
    (h : MemoryBloomFilter.Put lib filter data = some f1) :
    f1.K = filter.K ∧ f1.Bs.length = filter.Bs.length := by
  unfold MemoryBloomFilter.Put at h
  cases hl : MemoryBloomFilter.putLoop lib data filter.Bs.length (List.range filter.K)
      filter.Bs with
  | none => simp only [hl] at h; cases h
  | some b =>
    simp only [hl, Option.some.injEq] at h
    rw [← h]
    exact ⟨rfl, putLoop_length lib data _ _ _ _ hl⟩

/-- A completed run of `Put`, `Has` and `Store` calls keeps `K` and the number of words. -/
theorem run_keeps (lib : HashLib) :
    ∀ (ops : List MemoryCall) (filter f1 : MemoryBloomFilter),
      MemoryBloomFilter.run lib filter ops = some f1 →
        f1.K = filter.K ∧ f1.Bs.length = filter.Bs.length := by
  intro ops
  induction ops with
  | nil =>
    intro filter f1 h
    simp only [MemoryBloomFilter.run, Option.some.injEq] at h
    rw [h]
    exact ⟨rfl, rfl⟩
  | cons op rest ih =>
    intro filter f1 h
    cases op with
    | Put data =>
      simp only [MemoryBloomFilter.run] at h
      cases hp : MemoryBloomFilter.Put lib filter data with
      | none => rw [hp] at h; cases h
      | some f2 =>
        rw [hp] at h
        obtain ⟨h1, h2⟩ := ih f2 f1 h
        obtain ⟨h3, h4⟩ := Put_keeps lib filter f2 data hp
        exact ⟨h1.trans h3, h2.trans h4⟩
    | Has data =>
      simp only [MemoryBloomFilter.run] at h
      cases hp : MemoryBloomFilter.Has lib filter data with
      | none => rw [hp] at h; cases h
      | some b =>
        rw [hp] at h
        exact ih filter f1 h
    | Store =>
      simp only [MemoryBloomFilter.run, MemoryBloomFilter.Store] at h
      exact ih filter f1 h

/-- A run of `Put`, `Has` and `Store` calls on a filter with a non-empty vector does not
panic. -/
theorem run_total (lib : HashLib) :
    ∀ (ops : List MemoryCall) (filter : MemoryBloomFilter), filter.Bs ≠ [] →
      ∃ f1, MemoryBloomFilter.run lib filter ops = some f1 := by
  intro ops
  induction ops with
  | nil => intro filter _; exact ⟨filter, rfl⟩
  | cons op rest ih =>
    intro filter hne
    cases op with
    | Put data =>
      obtain ⟨f2, hp, -, hlen, -⟩ := Put_spec lib filter data hne
      have hne2 : f2.Bs ≠ [] := by
        intro hc
        rw [hc] at hlen
        exact hne (List.length_eq_zero.mp hlen.symm)
      obtain ⟨f1, h1⟩ := ih f2 hne2
      exact ⟨f1, by simp only [MemoryBloomFilter.run, hp]; exact h1⟩
    | Has data =>
      obtain ⟨b, hb, -⟩ := Has_spec lib filter data hne
      obtain ⟨f1, h1⟩ := ih filter hne
      exact ⟨f1, by simp only [MemoryBloomFilter.run, hb]; exact h1⟩
    | Store =>
      obtain ⟨f1, h1⟩ := ih filter hne
      exact ⟨f1, by simp only [MemoryBloomFilter.run, MemoryBloomFilter.Store]; exact h1⟩

/-! ## The Remote backend: commands and loops -/

theorem LSET_spec (store : RedisStore) (key : String) (index : Nat) (value : String)
    (h : index < (store key).length) :
    ∃ store1, store.LSET key index value = some store1 ∧
      store1 key = (store key).set index value ∧ ∀ k, k ≠ key → store1 k = store k := by
  refine ⟨fun k => if k = key then (store key).set index value else store k, ?_, ?_, ?_⟩
  · simp only [RedisStore.LSET, h, if_true]
  · simp
  · intro k hk
    simp [hk]

/-- On a row of `filter.N > 0` slots the loop of the Remote `Put` completes, keeps the
length of the row and the other keys, and leaves `"1"` in exactly the slots at the computed
indices, the other slots being as before. -/
theorem redis_putLoop_spec (lib : HashLib) (filter : RedisBloomFilter) (data : Bytes)
    (hpos : 0 < filter.N) :
    ∀ (is : List Nat) (store : RedisStore), (store filter.redisKey).length = filter.N →
      ∃ store1, RedisBloomFilter.putLoop lib filter data is store = some store1 ∧
        (store1 filter.redisKey).length = filter.N ∧
        (∀ j, (store1 filter.redisKey)[j]? =
          if ∃ i ∈ is, j = HashData lib data i % filter.N then some "1"
          else (store filter.redisKey)[j]?) ∧
        ∀ k, k ≠ filter.redisKey → store1 k = store k := by
  intro is
  induction is with
  | nil =>
    intro store hlen
    exact ⟨store, rfl, hlen, fun j => by simp, fun _ _ => rfl⟩
  | cons i rest ih =>
    intro store hlen
    have hidx : HashData lib data i % filter.N < (store filter.redisKey).length := by
      rw [hlen]
      exact Nat.mod_lt _ hpos
    obtain ⟨store1, hset, hrow, hother⟩ := LSET_spec store filter.redisKey _ "1" hidx
    have hlen1 : (store1 filter.redisKey).length = filter.N := by
      rw [hrow, List.length_set, hlen]
    obtain ⟨store2, hloop, hlen2, hslots, hother2⟩ := ih store1 hlen1
    refine ⟨store2, ?_, hlen2, ?_, ?_⟩
    · simp only [RedisBloomFilter.putLoop, Nat.ne_of_gt hpos, if_false, hset]
      exact hloop
    · intro j
      rw [hslots j, hrow]
      by_cases h1 : ∃ i1 ∈ rest, j = HashData lib data i1 % filter.N
      · have h2 : ∃ i1 ∈ i :: rest, j = HashData lib data i1 % filter.N := by
          obtain ⟨i1, hi1, hj⟩ := h1
          exact ⟨i1, List.mem_cons_of_mem _ hi1, hj⟩
        rw [if_pos h1, if_pos h2]
      · rw [if_neg h1]
        by_cases h3 : j = HashData lib data i % filter.N
        · have h2 : ∃ i1 ∈ i :: rest, j = HashData lib data i1 % filter.N :=
            ⟨i, List.mem_cons_self _ _, h3⟩
          rw [if_pos h2, h3, List.getElem?_set_self hidx]
        · have h2 : ¬ ∃ i1 ∈ i :: rest, j = HashData lib data i1 % filter.N := by
            rintro ⟨i1, hi1, hj⟩
            rcases List.mem_cons.mp hi1 with h | h
            · exact h3 (h ▸ hj)
            · exact h1 ⟨i1, h, hj⟩
          rw [if_neg h2, List.getElem?_set_ne (fun hc => h3 hc.symm)]
    · intro k hk
      rw [hother2 k hk, hother k hk]

/-- On a row of `filter.N > 0` slots the loop of the Remote `Has` completes and answers
true exactly when every probed slot holds `"1"`. -/
theorem redis_hasLoop_spec (lib : HashLib) (store : RedisStore) (filter : RedisBloomFilter)
    (data : Bytes) (hpos : 0 < filter.N)
    (hlen : (store filter.redisKey).length = filter.N) :
    ∀ is : List Nat, ∃ b, RedisBloomFilter.hasLoop lib store filter data is = some b ∧
      (b = true ↔
        ∀ i ∈ is, (store filter.redisKey)[HashData lib data i % filter.N]? = some "1") := by
  intro is
  induction is with
  | nil => exact ⟨true, rfl, by simp⟩
  | cons i rest ih =>
    obtain ⟨b, hb, hiff⟩ := ih
    have hidx : HashData lib data i % filter.N < (store filter.redisKey).length := by
      rw [hlen]
      exact Nat.mod_lt _ hpos
    have hget : store.LINDEX filter.redisKey (HashData lib data i % filter.N) =
        some ((store filter.redisKey)[HashData lib data i % filter.N]) := by
      unfold RedisStore.LINDEX
      exact List.getElem?_eq_getElem hidx
    by_cases hv : (store filter.redisKey)[HashData lib data i % filter.N] = "1"
    · refine ⟨b, ?_, ?_⟩
      · simp only [RedisBloomFilter.hasLoop, Nat.ne_of_gt hpos, if_false, hget, hv, ne_eq,
          not_true_eq_false]
        exact hb
      · rw [hiff]
        constructor
        · intro h i1 hi1
          rcases List.mem_cons.mp hi1 with h1 | h1
          · rw [h1, List.getElem?_eq_getElem hidx, hv]
          · exact h i1 h1
        · intro h i1 hi1
          exact h i1 (List.mem_cons_of_mem _ hi1)
    · refine ⟨false, ?_, ?_⟩
      · simp only [RedisBloomFilter.hasLoop, Nat.ne_of_gt hpos, if_false, hget, ne_eq, hv,
          not_false_eq_true, if_true]
      · constructor
        · intro h; cases h
        · intro h
          have h1 := h i (List.mem_cons_self _ _)
          rw [List.getElem?_eq_getElem hidx] at h1
          exact absurd (Option.some.inj h1) hv

theorem redis_Put_spec (lib : HashLib) (store : RedisStore) (filter : RedisBloomFilter)
    (data : Bytes) (hpos : 0 < filter.N)
    (hlen : (store filter.redisKey).length = filter.N) :
    ∃ store1, RedisBloomFilter.Put lib store filter data = some store1 ∧
      (store1 filter.redisKey).length = filter.N ∧
      (∀ j, (store1 filter.redisKey)[j]? =
        if ∃ i, i < filter.K ∧ j = HashData lib data i % filter.N then some "1"
        else (store filter.redisKey)[j]?) ∧
      ∀ k, k ≠ filter.redisKey → store1 k = store k := by
  obtain ⟨store1, hloop, hlen1, hslots, hother⟩ :=
    redis_putLoop_spec lib filter data hpos (List.range filter.K) store hlen
  refine ⟨store1, hloop, hlen1, ?_, hother⟩
  intro j
  rw [hslots j]
  simp only [List.mem_range]

theorem redis_Has_spec (lib : HashLib) (store : RedisStore) (filter : RedisBloomFilter)
    (data : Bytes) (hpos : 0 < filter.N)
    (hlen : (store filter.redisKey).length = filter.N) :
    ∃ b, RedisBloomFilter.Has lib store filter data = some b ∧
      (b = true ↔ ∀ i, i < filter.K →
        (store filter.redisKey)[HashData lib data i % filter.N]? = some "1") := by
  obtain ⟨b, hb, hiff⟩ :=
    redis_hasLoop_spec lib store filter data hpos hlen (List.range filter.K)
  refine ⟨b, hb, ?_⟩
  rw [hiff]
  simp only [List.mem_range]

/-- A run of Remote `Put` calls on a row of `filter.N > 0` slots completes, keeps the
length of the row, never takes a `"1"` away, and leaves `"1"` in the slots of every item
of the run. -/
theorem redis_putAll_spec (lib : HashLib) (filter : RedisBloomFilter) (hpos : 0 < filter.N) :
    ∀ (ds : List Bytes) (store : RedisStore), (store filter.redisKey).length = filter.N →
      ∃ store1, RedisBloomFilter.putAll lib filter store ds = some store1 ∧
        (store1 filter.redisKey).length = filter.N ∧
        (∀ j : Nat, (store filter.redisKey)[j]? = some "1" →
          (store1 filter.redisKey)[j]? = some "1") ∧
        ∀ d, d ∈ ds → ∀ i, i < filter.K →
          (store1 filter.redisKey)[HashData lib d i % filter.N]? = some "1" := by
  intro ds
  induction ds with
  | nil =>
    intro store hlen
    exact ⟨store, rfl, hlen, fun _ h => h, fun d hd => absurd hd (List.not_mem_nil d)⟩
  | cons d rest ih =>
    intro store hlen
    obtain ⟨store1, hput, hlen1, hslots, -⟩ := redis_Put_spec lib store filter d hpos hlen
    obtain ⟨store2, hall, hlen2, hkeep, hitems⟩ := ih store1 hlen1
    refine ⟨store2, ?_, hlen2, ?_, ?_⟩
    · simp only [RedisBloomFilter.putAll, hput]
      exact hall
    · intro j hj
      apply hkeep
      rw [hslots j, hj]
      simp
    · intro d1 hd1 i hi
      rcases List.mem_cons.mp hd1 with h | h
      · apply hkeep
        rw [hslots, if_pos ⟨i, hi, by rw [h]⟩]
      · exact hitems d1 h i hi

/-- After a Remote `Put(d)` on a row of `filter.N > 0` slots, `Has(d)` is true. -/
theorem redis_Has_of_slots (lib : HashLib) (store : RedisStore) (filter : RedisBloomFilter)
    (d : Bytes) (hpos : 0 < filter.N) (hlen : (store filter.redisKey).length = filter.N)
    (hslots : ∀ i, i < filter.K →
      (store filter.redisKey)[HashData lib d i % filter.N]? = some "1") :
    RedisBloomFilter.Has lib store filter d = some true := by
  obtain ⟨b, hb, hiff⟩ := redis_Has_spec lib store filter d hpos hlen
  rw [hb, hiff.mpr hslots]

/-- The row that `NewRedisBloomFilter` leaves under the key of the filter: the row found
there when its length is `n`, and `n` empty strings otherwise. -/
theorem NewRedisBloomFilter_spec (store : RedisStore) (n k : Nat) :
    (NewRedisBloomFilter store n k).2 = { N := n, K := k } ∧
    ((store (RedisBloomFilter.redisKey { N := n, K := k })).length = n →
      (NewRedisBloomFilter store n k).1 = store) ∧
    ((store (RedisBloomFilter.redisKey { N := n, K := k })).length ≠ n →
      (NewRedisBloomFilter store n k).1 (RedisBloomFilter.redisKey { N := n, K := k }) =
        List.replicate n "") := by
  refine ⟨?_, ?_, ?_⟩
  · unfold NewRedisBloomFilter
    simp only [RedisStore.LLEN]
    split
    · split <;> rfl
    · rfl
  · intro h
    unfold NewRedisBloomFilter
    simp only [RedisStore.LLEN, h, ne_eq, not_true_eq_false, if_false]
  · intro h
    unfold NewRedisBloomFilter
    simp only [RedisStore.LLEN, ne_eq, h, not_false_eq_true, if_true]
    cases n with
    | zero => simp [RedisStore.LPUSH, RedisStore.DEL]
    | succ m =>
      have hrep : (List.replicate (m + 1) "").isEmpty = false := rfl
      simp only [RedisStore.LPUSH, hrep, Bool.false_eq_true, if_false, RedisStore.DEL,
        if_true, List.reverse_replicate, List.append_nil]

/-! ## The key of the Remote backend -/

theorem digitVal_digitChar (d : Nat) (h : d < 10) : digitVal (Nat.digitChar d) = d := by
  interval_cases d <;> rfl

theorem digitChar_ne_colon (d : Nat) (h : d < 10) : Nat.digitChar d ≠ ':' := by
  interval_cases d <;> decide

/-- With enough fuel the digit loop of `Nat.repr` puts, in front of the accumulator, a list
of characters without a colon that writes `n`. -/
theorem toDigitsCore_spec :
    ∀ (fuel n : Nat) (acc : List Char), n < fuel →
      ∃ l, Nat.toDigitsCore 10 fuel n acc = l ++ acc ∧ decimalVal l = n ∧
        ∀ c ∈ l, c ≠ ':' := by
  intro fuel
  induction fuel with
  | zero => intro n acc h; omega
  | succ fuel ih =>
    intro n acc h
    have hd : n % 10 < 10 := Nat.mod_lt _ (by norm_num)
    by_cases hq : n / 10 = 0
    · refine ⟨[Nat.digitChar (n % 10)], ?_, ?_, ?_⟩
      · simp [Nat.toDigitsCore, hq]
      · simp only [decimalVal, List.foldl_cons, List.foldl_nil, digitVal_digitChar _ hd]
        omega
      · intro c hc
        rw [List.mem_singleton] at hc
        rw [hc]
        exact digitChar_ne_colon _ hd
    · have hlt : n / 10 < fuel := by omega
      obtain ⟨l, hl, hval, hcolon⟩ := ih (n / 10) (Nat.digitChar (n % 10) :: acc) hlt
      refine ⟨l ++ [Nat.digitChar (n % 10)], ?_, ?_, ?_⟩
      · simp only [Nat.toDigitsCore, hq, if_false, hl, List.append_assoc, List.singleton_append]
      · unfold decimalVal at hval ⊢
        rw [List.foldl_append, hval]
        simp only [List.foldl_cons, List.foldl_nil, digitVal_digitChar _ hd]
        omega
      · intro c hc
        rcases List.mem_append.mp hc with h1 | h1
        · exact hcolon c h1
        · rw [List.mem_singleton] at h1
          rw [h1]
          exact digitChar_ne_colon _ hd

/-- The characters of `Nat.repr n` write `n` and hold no colon. -/
theorem repr_spec (n : Nat) :
    decimalVal (Nat.repr n).data = n ∧ ∀ c ∈ (Nat.repr n).data, c ≠ ':' := by
  obtain ⟨l, hl, hval, hcolon⟩ := toDigitsCore_spec (n + 1) n [] (Nat.lt_succ_self n)
  have hdata : (Nat.repr n).data = l := by
    show Nat.toDigitsCore 10 (n + 1) n [] = l
    rw [hl, List.append_nil]
  rw [hdata]
  exact ⟨hval, hcolon⟩

theorem append_cons_split (a : Char) :
    ∀ (l1 l2 r1 r2 : List Char), (∀ c ∈ l1, c ≠ a) → (∀ c ∈ l2, c ≠ a) →
      l1 ++ a :: r1 = l2 ++ a :: r2 → l1 = l2 ∧ r1 = r2 := by
  intro l1
  induction l1 with
  | nil =>
    intro l2 r1 r2 _ h2 h
    cases l2 with
    | nil =>
      simp only [List.nil_append, List.cons.injEq, true_and] at h
      exact ⟨rfl, h⟩
    | cons b t =>
      simp only [List.nil_append, List.cons_append, List.cons.injEq] at h
      exact absurd h.1.symm (h2 b (List.mem_cons_self _ _))
  | cons b t ih =>
    intro l2 r1 r2 h1 h2 h
    cases l2 with
    | nil =>
      simp only [List.nil_append, List.cons_append, List.cons.injEq] at h
      exact absurd h.1 (h1 b (List.mem_cons_self _ _))
    | cons b2 t2 =>
      simp only [List.cons_append, List.cons.injEq] at h
      obtain ⟨h3, h4⟩ := ih t2 r1 r2 (fun c hc => h1 c (List.mem_cons_of_mem _ hc))
        (fun c hc => h2 c (List.mem_cons_of_mem _ hc)) h.2
      exact ⟨by rw [h.1, h3], h4⟩

/-- The characters of the key: the fixed head, the decimal `N`, `":k"`, the decimal `K`. -/
theorem redisKey_data (filter : RedisBloomFilter) :
    filter.redisKey.data =
      "_bloomfilter:n".data ++ ((Nat.repr filter.N).data ++
        ':' :: 'k' :: (Nat.repr filter.K).data) := by
  unfold RedisBloomFilter.redisKey
  simp only [String.data_append, List.append_assoc]
  rfl

/-! ## The File backend -/

/-- The methods promoted from the embedded Memory filter: a run of `Put` calls on a File
filter is the run on its Memory filter, the file name being kept. -/
theorem file_putAll_eq (lib : HashLib) (filename : String) :
    ∀ (ds : List Bytes) (m : MemoryBloomFilter),
      FileBloomFilter.putAll lib { MemoryBloomFilter := some m, Filename := filename } ds =
        (MemoryBloomFilter.putAll lib m ds).map
          (fun m1 => { MemoryBloomFilter := some m1, Filename := filename }) := by
  intro ds
  induction ds with
  | nil => intro m; rfl
  | cons d rest ih =>
    intro m
    simp only [FileBloomFilter.putAll, FileBloomFilter.Put, MemoryBloomFilter.putAll]
    cases MemoryBloomFilter.Put lib m d with
    | none => rfl
    | some m1 => exact ih m1

/-- After a completed run of `Put` calls on a filter with a non-empty vector, `Has` is true
for every item of the run. -/
theorem Has_of_putAll (lib : HashLib) (filter f1 : MemoryBloomFilter) (ds : List Bytes)
    (d : Bytes) (hne : filter.Bs ≠ []) (hd : d ∈ ds)
    (hall : MemoryBloomFilter.putAll lib filter ds = some f1) :
    MemoryBloomFilter.Has lib f1 d = some true := by
  obtain ⟨f2, hall2, hK, hlen, hbits⟩ := putAll_spec lib ds filter hne
  rw [hall] at hall2
  have hf : f1 = f2 := Option.some.inj hall2
  subst hf
  have hne1 : f1.Bs ≠ [] := by
    intro hc
    rw [hc] at hlen
    exact hne (List.length_eq_zero.mp hlen.symm)
  obtain ⟨b, hb, hiff⟩ := Has_spec lib f1 d hne1
  have htrue : b = true := by
    rw [hiff]
    intro i hi
    rw [hbits, if_pos]
    exact ⟨d, hd, i, hK ▸ hi, by rw [hlen]⟩
  rw [hb, htrue]

/-- A completed `Store` leaves the encoding of the filter in the file at its name, and the
other files as they were. -/
theorem Store_spec (io : FileLib) (fs fs1 : FileSystem) (filter : FileBloomFilter)
    (h : FileBloomFilter.Store io fs filter = some fs1) :
    io.Create fs filter.Filename = true ∧ fs1 filter.Filename = io.Encode filter ∧
      ∀ path, path ≠ filter.Filename → fs1 path = fs path := by
  unfold FileBloomFilter.Store at h
  by_cases hc : io.Create fs filter.Filename = true
  · simp only [hc, if_true] at h
    cases he : io.Encode filter with
    | none => rw [he] at h; cases h
    | some content =>
      rw [he] at h
      simp only [Option.some.injEq] at h
      subst h
      refine ⟨hc, by simp, ?_⟩
      intro path hp
      simp [hp]
  · simp only [hc] at h
    cases h

/-- On a file that opens and whose gzip header is accepted, `ReloadFileBloomFilter` returns
what `Decode` left in the zero-valued filter, whether `Decode` reported an error or
not. -/
theorem Reload_of_content (io : FileLib) (fs : FileSystem) (filename : String)
    (content : Bytes) (hopen : fs filename = some content)
    (hread : io.NewReader content = true) :
    ReloadFileBloomFilter io fs filename =
      some (io.Decode content { MemoryBloomFilter := none, Filename := "" }).1 := by
  unfold ReloadFileBloomFilter
  simp only [hopen, hread, if_true]

/-! ## The persistence format -/

theorem toNat_ofNat_lt (x : Nat) (h : x < 256) : (UInt8.ofNat x).toNat = x := by
  show x % 256 = x
  exact Nat.mod_eq_of_lt h

theorem le64_eq (v : Nat) :
    le64 v = [UInt8.ofNat (v % 256), UInt8.ofNat (v / 256 % 256),
      UInt8.ofNat (v / 65536 % 256), UInt8.ofNat (v / 16777216 % 256),
      UInt8.ofNat (v / 4294967296 % 256), UInt8.ofNat (v / 1099511627776 % 256),
      UInt8.ofNat (v / 281474976710656 % 256),
      UInt8.ofNat (v / 72057594037927936 % 256)] := by
  simp [le64, List.range_succ]

/-- The 8 bytes of a value below `2 ^ 64` write that value. -/
theorem fromLe_le64 (v : Nat) (h : v < 2 ^ 64) : fromLe (le64 v) = v := by
  rw [le64_eq]
  simp only [fromLe, List.foldr_cons, List.foldr_nil]
  rw [toNat_ofNat_lt _ (Nat.mod_lt _ (by norm_num)),
    toNat_ofNat_lt _ (Nat.mod_lt _ (by norm_num)),
    toNat_ofNat_lt _ (Nat.mod_lt _ (by norm_num)),
    toNat_ofNat_lt _ (Nat.mod_lt _ (by norm_num)),
    toNat_ofNat_lt _ (Nat.mod_lt _ (by norm_num)),
    toNat_ofNat_lt _ (Nat.mod_lt _ (by norm_num)),
    toNat_ofNat_lt _ (Nat.mod_lt _ (by norm_num)),
    toNat_ofNat_lt _ (Nat.mod_lt _ (by norm_num))]
  have h2 : v < 18446744073709551616 := by simpa using h
  omega

theorem deserializeWords_serializeWords :
    ∀ ws : List Nat, (∀ w ∈ ws, w < 2 ^ 64) →
      deserializeWords (serializeWords ws) = some ws := by
  intro ws
  induction ws with
  | nil => intro _; rfl
  | cons w rest ih =>
    intro h
    have hw : w < 2 ^ 64 := h w (List.mem_cons_self _ _)
    have hrest := ih (fun x hx => h x (List.mem_cons_of_mem _ hx))
    have e : serializeWords (w :: rest) = le64 w ++ serializeWords rest := by
      simp [serializeWords]
    have hval := fromLe_le64 w hw
    rw [e]
    rw [le64_eq] at hval ⊢
    simp only [List.cons_append, List.nil_append]
    simp only [deserializeWords, hrest, hval]

/-- Decoding the payload of a state whose `K` and words are 64-bit values gives the state
back. -/
theorem deserialize_serialize (m : MemoryBloomFilter) (hK : m.K < 2 ^ 64)
    (hws : ∀ w ∈ m.Bs, w < 2 ^ 64) : deserialize (serialize m) = some m := by
  have hval := fromLe_le64 m.K hK
  unfold serialize
  rw [le64_eq] at hval ⊢
  simp only [List.cons_append, List.nil_append]
  simp only [deserialize, deserializeWords_serializeWords m.Bs hws, hval]

/-- Decompression undoes compression, on every byte sequence. -/
theorem rleDecode_rleEncode : ∀ l : Bytes, rleDecode (rleEncode l) = some l := by
  intro l
  induction l with
  | nil => rfl
  | cons b rest ih =>
    simp only [rleEncode]
    cases hr : rleEncode rest with
    | nil =>
      rw [hr] at ih
      simp only [rleDecode, Option.some.injEq] at ih
      rw [← ih]
      rfl
    | cons c t =>
      cases t with
      | nil =>
        rw [hr] at ih
        simp [rleDecode] at ih
      | cons b1 tail =>
        rw [hr] at ih
        simp only [rleDecode] at ih
        cases ht : rleDecode tail with
        | none => rw [ht] at ih; cases ih
        | some r =>
          rw [ht] at ih
          simp only [Option.some.injEq] at ih
          by_cases hc : b1 = b ∧ c.toNat < 255
          · simp only [hc, and_self, if_true, rleDecode, ht]
            rw [toNat_ofNat_lt _ (by omega), ← ih, hc.1, List.replicate_succ]
            rfl
          · simp only [hc, if_false, rleDecode, ht]
            rw [← ih]
            rfl

/-- `Set` keeps every word a 64-bit value. -/
theorem Set_words_lt (bs bs1 : BitSets) (i : Nat) (h : BitSets.Set bs i = some bs1)
    (hws : ∀ w ∈ bs, w < 2 ^ 64) : ∀ w ∈ bs1, w < 2 ^ 64 := by
  rw [Set_eq] at h
  cases hw : bs[i / 64]? with
  | none => rw [hw] at h; cases h
  | some w0 =>
    rw [hw] at h
    simp only [Option.map_some', Option.some.injEq] at h
    subst h
    intro w hmem
    rcases List.mem_or_eq_of_mem_set hmem with h1 | h1
    · exact hws w h1
    · rw [h1]
      have h0 : w0 < 2 ^ 64 := hws w0 (List.getElem?_mem hw)
      have hb : 2 ^ (i % 64) < 2 ^ 64 :=
        Nat.pow_lt_pow_right (by norm_num) (Nat.mod_lt _ (by norm_num))
      exact Nat.or_lt_two_pow h0 hb

theorem putLoop_words_lt (lib : HashLib) (data : Bytes) (len : Nat) :
    ∀ (is : List Nat) (bs bs1 : BitSets),
      MemoryBloomFilter.putLoop lib data len is bs = some bs1 →
        (∀ w ∈ bs, w < 2 ^ 64) → ∀ w ∈ bs1, w < 2 ^ 64 := by
  intro is
  induction is with
  | nil =>
    intro bs bs1 h hws
    simp only [MemoryBloomFilter.putLoop, Option.some.injEq] at h
    rw [← h]
    exact hws
  | cons i rest ih =>
    intro bs bs1 h hws
    simp only [MemoryBloomFilter.putLoop] at h
    by_cases hz : len = 0
    · simp [hz] at h
    · simp only [hz, if_false] at h
      cases hs : BitSets.Set bs (HashData lib data i % len) with
      | none => rw [hs] at h; cases h
      | some bs2 =>
        rw [hs] at h
        exact ih bs2 bs1 h (Set_words_lt bs bs2 _ hs hws)

/-- A run of `Put` calls keeps every word a 64-bit value. -/
theorem putAll_words_lt (lib : HashLib) :
    ∀ (ds : List Bytes) (filter f1 : MemoryBloomFilter),
      MemoryBloomFilter.putAll lib filter ds = some f1 →
        (∀ w ∈ filter.Bs, w < 2 ^ 64) → ∀ w ∈ f1.Bs, w < 2 ^ 64 := by
  intro ds
  induction ds with
  | nil =>
    intro filter f1 h hws
    simp only [MemoryBloomFilter.putAll, Option.some.injEq] at h
    rw [← h]
    exact hws
  | cons d rest ih =>
    intro filter f1 h hws
    simp only [MemoryBloomFilter.putAll] at h
    cases hp : MemoryBloomFilter.Put lib filter d with
    | none => rw [hp] at h; cases h
    | some f2 =>
      rw [hp] at h
      apply ih f2 f1 h
      unfold MemoryBloomFilter.Put at hp
      cases hl : MemoryBloomFilter.putLoop lib d filter.Bs.length (List.range filter.K)
          filter.Bs with
      | none => simp only [hl] at hp; cases hp
      | some b =>
        simp only [hl, Option.some.injEq] at hp
        rw [← hp]
        exact putLoop_words_lt lib d _ _ _ _ hl hws

theorem NewBitSets_words_lt (n : Nat) : ∀ w ∈ NewBitSets n, w < 2 ^ 64 := by
  intro w hw
  unfold NewBitSets at hw
  rw [List.eq_of_mem_replicate hw]
  norm_num

/-- The path of the snapshot through `Store` and `ReloadFileBloomFilter`, for any file
library: the reloaded filter is what the decoder makes of the content the encoder wrote
for the state `f` reached by a run of `Put` calls. -/
theorem reload_of_decode (lib : HashLib) (io : FileLib) (fs : FileSystem)
    (filename : String) (n k : Nat) (ds : List Bytes) (content : Bytes)
    (f : FileBloomFilter)
    (hput : FileBloomFilter.putAll lib (NewFileBloomFilter filename n k) ds = some f)
    (hcreate : io.Create fs filename = true)
    (henc : io.Encode f = some content)
    (hread : io.NewReader content = true)
    (hdec : (io.Decode content { MemoryBloomFilter := none, Filename := "" }).1.MemoryBloomFilter
      = f.MemoryBloomFilter) :
    ∃ fs1 g m gm, FileBloomFilter.Store io fs f = some fs1 ∧
      ReloadFileBloomFilter io fs1 filename = some g ∧
      f.MemoryBloomFilter = some m ∧ g.MemoryBloomFilter = some gm ∧
      gm.K = m.K ∧ gm.K = k ∧ gm.Bs = m.Bs ∧
      (∀ data, FileBloomFilter.Has lib g data = FileBloomFilter.Has lib f data) ∧
      (∀ d, d ∈ ds → FileBloomFilter.Has lib g d = some true) := by
  have hfile := file_putAll_eq lib filename ds (NewMemoryBloomFilter n k)
  have hput1 : FileBloomFilter.putAll lib
      { MemoryBloomFilter := some (NewMemoryBloomFilter n k), Filename := filename } ds =
      some f := hput
  rw [hfile] at hput1
  cases hm : MemoryBloomFilter.putAll lib (NewMemoryBloomFilter n k) ds with
  | none => rw [hm] at hput1; cases hput1
  | some m =>
    rw [hm] at hput1
    simp only [Option.map_some', Option.some.injEq] at hput1
    subst hput1
    have hne : (NewMemoryBloomFilter n k).Bs ≠ [] := NewBitSets_ne_nil n
    obtain ⟨m2, hm2, hK, -, -⟩ := putAll_spec lib ds (NewMemoryBloomFilter n k) hne
    rw [hm] at hm2
    have hmm : m = m2 := Option.some.inj hm2
    subst hmm
    have hstore : FileBloomFilter.Store io fs
        { MemoryBloomFilter := some m, Filename := filename } =
        some (fun path => if path = filename then some content else fs path) := by
      unfold FileBloomFilter.Store
      simp only [hcreate, if_true, henc]
    have hreload := Reload_of_content io
      (fun path => if path = filename then some content else fs path) filename content
      (by simp) hread
    have hg : (io.Decode content { MemoryBloomFilter := none, Filename := "" }).1.MemoryBloomFilter
        = some m := hdec
    refine ⟨_, _, m, m, hstore, hreload, rfl, hg, rfl, hK, rfl, ?_, ?_⟩
    · intro data
      simp only [FileBloomFilter.Has, hg]
    · intro d hd
      simp only [FileBloomFilter.Has, hg]
      exact Has_of_putAll lib (NewMemoryBloomFilter n k) m ds d hne hd hm

/-! ## The claims -/

/-- C1. No false negatives in the Memory backend: on the filter built by
`NewMemoryBloomFilter(n, k)`, with `n ≥ 1` and `k ≥ 1`, every finite run of `Put` calls
that contains `Put(d)` completes without a panic, and `Has(d)` on the filter it leaves
returns true, whatever was put before or after `d`. -/
theorem Has_after_Put (lib : HashLib) (n k : Nat) (hn : 1 ≤ n) (hk : 1 ≤ k)
    (ds : List Bytes) (d : Bytes) (hd : d ∈ ds) :
    ∃ f1, MemoryBloomFilter.putAll lib (NewMemoryBloomFilter n k) ds = some f1 ∧
      MemoryBloomFilter.Has lib f1 d = some true := by
  have _ := hn
  have _ := hk
  have hne : (NewMemoryBloomFilter n k).Bs ≠ [] := NewBitSets_ne_nil n
  obtain ⟨f1, hall, hK, hlen, hbits⟩ := putAll_spec lib ds (NewMemoryBloomFilter n k) hne
  refine ⟨f1, hall, ?_⟩
  have hne1 : f1.Bs ≠ [] := by
    intro hc
    rw [hc] at hlen
    exact hne (List.length_eq_zero.mp hlen.symm)
  obtain ⟨b, hb, hiff⟩ := Has_spec lib f1 d hne1
  have htrue : b = true := by
    rw [hiff]
    intro i hi
    rw [hbits, if_pos]
    exact ⟨d, hd, i, hK ▸ hi, by rw [hlen]⟩
  rw [hb, htrue]

/-- Witness of C1: a filter of 128 bits and 2 hash functions, three items put, the second
one looked up. -/
theorem Has_after_Put_witness :
    ∃ f1, MemoryBloomFilter.putAll (stubLib 5) (NewMemoryBloomFilter 128 2)
        [[1], [2], [3]] = some f1 ∧
      MemoryBloomFilter.Has (stubLib 5) f1 [2] = some true :=
  Has_after_Put (stubLib 5) 128 2 (by decide) (by decide) [[1], [2], [3]] [2] (by decide)

/-- C3. On a Memory filter with a non-empty bit vector, `Has(data)` does not panic; it
returns true if and only if, for every `i < K`, the bit at the index of iteration `i`,
`HashData(data, i) % len(filter.Bs)`, is 1, and false if and only if one of those bits is
0; these indices are the ones at which `Put(data)` leaves a 1. -/
theorem Has_iff_probed_bits (lib : HashLib) (filter : MemoryBloomFilter) (data : Bytes)
    (hne : filter.Bs ≠ []) :
    (MemoryBloomFilter.Has lib filter data = some true ↔
      ∀ i, i < filter.K →
        BitSets.IsSet filter.Bs (MemoryBloomFilter.probe lib filter data i) = some true) ∧
    (MemoryBloomFilter.Has lib filter data = some false ↔
      ∃ i, i < filter.K ∧
        BitSets.IsSet filter.Bs (MemoryBloomFilter.probe lib filter data i) = some false) ∧
    (∃ f1, MemoryBloomFilter.Put lib filter data = some f1 ∧
      ∀ j, BitSets.IsSet f1.Bs j = some true ↔
        (BitSets.IsSet filter.Bs j = some true ∨
          ∃ i, i < filter.K ∧ j = MemoryBloomFilter.probe lib filter data i)) := by
  have hpos : 0 < filter.Bs.length := List.length_pos.mpr hne
  obtain ⟨b, hb, hiff⟩ := Has_spec lib filter data hne
  have hdef : ∀ i, ∃ v, BitSets.IsSet filter.Bs (MemoryBloomFilter.probe lib filter data i) =
      some v := by
    intro i
    have hidx : MemoryBloomFilter.probe lib filter data i / 64 < filter.Bs.length :=
      lt_of_le_of_lt (Nat.div_le_self _ _) (Nat.mod_lt _ hpos)
    rw [IsSet_eq, List.getElem?_eq_getElem hidx]
    exact ⟨_, rfl⟩
  refine ⟨?_, ?_, ?_⟩
  · rw [hb]
    constructor
    · intro h
      exact hiff.mp (Option.some.inj h)
    · intro h
      rw [hiff.mpr h]
  · rw [hb]
    constructor
    · intro h
      have hbf : b = false := Option.some.inj h
      by_contra hall
      have hall1 : ∀ i, i < filter.K →
          BitSets.IsSet filter.Bs (MemoryBloomFilter.probe lib filter data i) = some true := by
        intro i hi
        obtain ⟨v, hv⟩ := hdef i
        cases v with
        | true => exact hv
        | false => exact absurd ⟨i, hi, hv⟩ hall
      rw [hiff.mpr hall1] at hbf
      cases hbf
    · rintro ⟨i, hi, hv⟩
      cases b with
      | false => rfl
      | true =>
        have h1 := hiff.mp rfl i hi
        unfold MemoryBloomFilter.probe at hv
        rw [hv] at h1
        cases h1
  · obtain ⟨f1, hput, -, -, hbits⟩ := Put_spec lib filter data hne
    refine ⟨f1, hput, ?_⟩
    intro j
    rw [hbits j]
    unfold MemoryBloomFilter.probe
    by_cases h : ∃ i, i < filter.K ∧ j = HashData lib data i % filter.Bs.length
    · rw [if_pos h]
      simp [h]
    · rw [if_neg h]
      simp [h]

/-- Witness of C3: a filter with `K = 2` and three words whose only 1 is bit 2; the hash
values 5 and 6 give the indices 2 and 0. -/
theorem Has_iff_probed_bits_witness :
    MemoryBloomFilter.Has (stubLib 5) { K := 2, Bs := [4, 0, 0] } [] = some false ↔
      ∃ i, i < 2 ∧ BitSets.IsSet [4, 0, 0]
        (MemoryBloomFilter.probe (stubLib 5) { K := 2, Bs := [4, 0, 0] } [] i) = some false :=
  (Has_iff_probed_bits (stubLib 5) { K := 2, Bs := [4, 0, 0] } [] (by decide)).2.1

/-- C4. `Set` sets only the intended bit: for indices `i` and `j` inside the storage of
`bs`, `bs.Set(i)` does not panic and keeps the number of words, and afterwards `IsSet(j)`
is true when `j = i` and is what it was before the call when `j ≠ i`. -/
theorem Set_sets_only_intended_bit (bs : BitSets) (i j : Nat) (hi : i / 64 < bs.length)
    (hj : j / 64 < bs.length) :
    ∃ bs1, BitSets.Set bs i = some bs1 ∧ bs1.length = bs.length ∧
      (∃ b, BitSets.IsSet bs j = some b) ∧
      BitSets.IsSet bs1 j = if j = i then some true else BitSets.IsSet bs j := by
  obtain ⟨bs1, hset⟩ := Set_isSome bs i hi
  refine ⟨bs1, hset, Set_length bs bs1 i hset, ?_, IsSet_Set bs bs1 i j hset⟩
  rw [IsSet_eq, List.getElem?_eq_getElem hj]
  exact ⟨_, rfl⟩

/-- Witness of C4 at the word boundary: in a vector of 128 requested bits whose bit 64 is
1, `Set(63)` is looked at through `IsSet(64)`. -/
theorem Set_sets_only_intended_bit_witness :
    ∃ bs1, BitSets.Set [0, 1, 0] 63 = some bs1 ∧ bs1.length = [0, 1, 0].length ∧
      (∃ b, BitSets.IsSet [0, 1, 0] 64 = some b) ∧
      BitSets.IsSet bs1 64 = if 64 = 63 then some true else BitSets.IsSet [0, 1, 0] 64 :=
  Set_sets_only_intended_bit [0, 1, 0] 63 64 (by decide) (by decide)

/-- C5, at the failing input. `Unset` flips the bit instead of clearing it: on the vector
of `NewBitSets(1)`, whose bit 0 is 0, `Unset(0)` leaves the word 1, and `IsSet(0)` is then
true. -/
theorem Unset_flips_cleared_bit :
    BitSets.IsSet (NewBitSets 1) 0 = some false ∧
    BitSets.Unset (NewBitSets 1) 0 = some [1] ∧
    BitSets.IsSet [1] 0 = some true := by
  decide

/-- C10. `Set` is idempotent: for an index inside the storage, `Set(i)` does not panic,
and a second `Set(i)` leaves every word as the first one left it. -/
theorem Set_idempotent (bs : BitSets) (i : Nat) (hi : i / 64 < bs.length) :
    ∃ bs1, BitSets.Set bs i = some bs1 ∧ BitSets.Set bs1 i = some bs1 := by
  refine ⟨bs.set (i / 64) (bs[i / 64] ||| 2 ^ (i % 64)), ?_, ?_⟩
  · rw [Set_eq, List.getElem?_eq_getElem hi]
    rfl
  · rw [Set_eq, List.getElem?_set_self hi]
    simp only [Option.map_some', List.set_set, Nat.or_assoc, Nat.or_self]

/-- Witness of C10: bit 64, the first bit of the second word. -/
theorem Set_idempotent_witness :
    ∃ bs1, BitSets.Set [5, 0, 0] 64 = some bs1 ∧ BitSets.Set bs1 64 = some bs1 :=
  Set_idempotent [5, 0, 0] 64 (by decide)

/-- C2, at the failing input. On the filter built by `NewMemoryBloomFilter(128, 1)`,
whatever the hash library and the data, `Put(data)` completes and leaves exactly one bit
at 1, the one at index `HashData(data, 0) % 3`, where 3 is the number of words
`128/64 + 1`; the bit at `HashData(data, 0) % 128` is 1 only when the two remainders
coincide. -/
theorem Put_reduces_modulo_word_count (lib : HashLib) (data : Bytes) :
    ∃ f1, MemoryBloomFilter.Put lib (NewMemoryBloomFilter 128 1) data = some f1 ∧
      (∀ j, BitSets.IsSet f1.Bs j = some true ↔ j = HashData lib data 0 % 3) ∧
      BitSets.IsSet f1.Bs (HashData lib data 0 % 128) =
        some (decide (HashData lib data 0 % 128 = HashData lib data 0 % 3)) := by
  obtain ⟨f1, hput, -, -, hbits⟩ :=
    Put_spec lib (NewMemoryBloomFilter 128 1) data (NewBitSets_ne_nil 128)
  have hlen : (NewMemoryBloomFilter 128 1).Bs.length = 3 := by decide
  have hK : (NewMemoryBloomFilter 128 1).K = 1 := rfl
  have hnew : ∀ j, BitSets.IsSet (NewMemoryBloomFilter 128 1).Bs j =
      if j / 64 < 128 / 64 + 1 then some false else none := IsSet_NewBitSets 128
  have hex : ∀ j, (∃ i, i < 1 ∧ j = HashData lib data i % 3) ↔ j = HashData lib data 0 % 3 := by
    intro j
    constructor
    · rintro ⟨i, hi, hj⟩
      have : i = 0 := by omega
      rw [hj, this]
    · intro hj
      exact ⟨0, by omega, hj⟩
  refine ⟨f1, hput, ?_, ?_⟩
  · intro j
    rw [hbits j, hlen, hK, hnew j]
    by_cases h : j = HashData lib data 0 % 3
    · rw [if_pos ((hex j).mpr h)]
      simp [h]
    · rw [if_neg (fun hc => h ((hex j).mp hc))]
      by_cases h2 : j / 64 < 128 / 64 + 1
      · simp [h, h2]
      · simp [h, h2]
  · rw [hbits _, hlen, hK, hnew _]
    have hlt : HashData lib data 0 % 128 / 64 < 128 / 64 + 1 := by omega
    by_cases h : HashData lib data 0 % 128 = HashData lib data 0 % 3
    · rw [if_pos ((hex _).mpr h)]
      simp [h]
    · rw [if_neg (fun hc => h ((hex _).mp hc)), if_pos hlt]
      simp [h]

/-- C6, counterexample. On the vector of `NewBitSets(1)` the index 1, which is not below
the capacity 1, is accepted by `Set`: the call writes bit 1 of the only word. -/
theorem Set_accepts_index_at_capacity :
    (1 : Nat) ≤ 1 ∧ BitSets.Set (NewBitSets 1) 1 = some [2] := by
  decide

/-- C6, amended. On the vector of `NewBitSets(n)`, `Set(index)` panics, writing nothing,
exactly when `index ≥ 64 * (n/64 + 1)`, that is when the word `index / 64` is outside the
`n/64 + 1` allocated words; for every smaller index it completes and sets the bit. -/
theorem Set_fails_iff_outside_words (n index : Nat) :
    (BitSets.Set (NewBitSets n) index = none ↔ 64 * (n / 64 + 1) ≤ index) ∧
    ((∃ bs1, BitSets.Set (NewBitSets n) index = some bs1 ∧
        BitSets.IsSet bs1 index = some true) ↔ index < 64 * (n / 64 + 1)) := by
  by_cases h : index / 64 < (NewBitSets n).length
  · have hlt : index < 64 * (n / 64 + 1) := by
      rw [NewBitSets_length] at h
      omega
    obtain ⟨bs1, hs⟩ := Set_isSome _ index h
    constructor
    · rw [hs]
      constructor
      · intro hc; cases hc
      · intro hc; omega
    · constructor
      · intro _; exact hlt
      · intro _
        refine ⟨bs1, hs, ?_⟩
        rw [IsSet_Set _ bs1 index index hs, if_pos rfl]
  · have hge : 64 * (n / 64 + 1) ≤ index := by
      rw [NewBitSets_length] at h
      omega
    have hnone : BitSets.Set (NewBitSets n) index = none := by
      rw [Set_eq, List.getElem?_eq_none (Nat.le_of_not_lt h)]
      rfl
    constructor
    · rw [hnone]
      exact ⟨fun _ => hge, fun _ => rfl⟩
    · constructor
      · rintro ⟨bs1, hs, -⟩
        rw [hnone] at hs
        cases hs
      · intro hc; omega

/-- C7, counterexample. For the requested capacity 64, `NewBitSets` allocates 2 words,
while `ceil(64/64)` is 1. -/
theorem NewBitSets_64_has_two_words :
    (NewBitSets 64).length = 2 ∧ (64 + 63) / 64 = 1 ∧ (NewBitSets 64).length ≠ (64 + 63) / 64 := by
  decide

/-- C7, amended. `NewBitSets(n)` allocates exactly `n/64 + 1` words (integer division),
all zero; that is `ceil(n/64)` words when `n` is not a multiple of 64 and one word more
when it is. -/
theorem NewBitSets_word_count (n : Nat) :
    (NewBitSets n).length = n / 64 + 1 ∧
    (NewBitSets n).length = (n + 63) / 64 + (if n % 64 = 0 then 1 else 0) ∧
    NewBitSets n = List.replicate (n / 64 + 1) 0 := by
  refine ⟨NewBitSets_length n, ?_, rfl⟩
  rw [NewBitSets_length]
  by_cases h : n % 64 = 0
  · rw [if_pos h]; omega
  · rw [if_neg h]; omega

/-- C8. On the filter built by `NewMemoryBloomFilter(n, k)` with `n ≥ 1`, after any run of
`Put` calls: `K` is `k` and the vector has `n/64 + 1` words; for every data and every
`i < k` the index `HashData(data, i) % len(filter.Bs)` of iteration `i` is below `n` and
its word is inside the vector; `Put(data)` is the fold of `Set` over these indices and,
like `Has(data)`, completes without a panic. -/
theorem probe_below_capacity (lib : HashLib) (n k : Nat) (hn : 1 ≤ n) (ds : List Bytes)
    (data : Bytes) :
    ∃ f, MemoryBloomFilter.putAll lib (NewMemoryBloomFilter n k) ds = some f ∧
      f.K = k ∧ f.Bs.length = n / 64 + 1 ∧
      (∀ i, i < k → MemoryBloomFilter.probe lib f data i < n ∧
        MemoryBloomFilter.probe lib f data i / 64 < f.Bs.length) ∧
      MemoryBloomFilter.Put lib f data =
        ((List.range k).foldlM
          (fun b i => BitSets.Set b (MemoryBloomFilter.probe lib f data i)) f.Bs).map
          (fun b => { f with Bs := b }) ∧
      (∃ f1, MemoryBloomFilter.Put lib f data = some f1) ∧
      (∃ b, MemoryBloomFilter.Has lib f data = some b) := by
  have hne : (NewMemoryBloomFilter n k).Bs ≠ [] := NewBitSets_ne_nil n
  obtain ⟨f, hall, hK, hlen, -⟩ := putAll_spec lib ds (NewMemoryBloomFilter n k) hne
  have hlen1 : f.Bs.length = n / 64 + 1 := by
    rw [hlen]
    exact NewBitSets_length n
  have hK1 : f.K = k := hK
  have hne1 : f.Bs ≠ [] := by
    intro hc
    rw [hc] at hlen1
    simp at hlen1
  have hpos : 0 < f.Bs.length := List.length_pos.mpr hne1
  refine ⟨f, hall, hK1, hlen1, ?_, ?_, ?_, ?_⟩
  · intro i _
    have h1 : MemoryBloomFilter.probe lib f data i < f.Bs.length := Nat.mod_lt _ hpos
    constructor
    · rw [hlen1] at h1
      omega
    · exact lt_of_le_of_lt (Nat.div_le_self _ _) h1
  · unfold MemoryBloomFilter.Put MemoryBloomFilter.probe
    simp only [putLoop_eq_foldlM lib data f.Bs.length hpos, hK1]
    cases List.foldlM (fun b i => BitSets.Set b (HashData lib data i % f.Bs.length)) f.Bs
      (List.range k) <;> rfl
  · obtain ⟨f1, h1, -⟩ := Put_spec lib f data hne1
    exact ⟨f1, h1⟩
  · obtain ⟨b, h1, -⟩ := Has_spec lib f data hne1
    exact ⟨b, h1⟩

/-- Witness of C8: the capacity 1, the smallest one allowed, with two hash functions and
one earlier `Put`. -/
theorem probe_below_capacity_witness :
    ∃ f, MemoryBloomFilter.putAll (stubLib 5) (NewMemoryBloomFilter 1 2) [[7]] = some f ∧
      f.K = 2 ∧ f.Bs.length = 1 / 64 + 1 ∧
      (∀ i, i < 2 → MemoryBloomFilter.probe (stubLib 5) f [9] i < 1 ∧
        MemoryBloomFilter.probe (stubLib 5) f [9] i / 64 < f.Bs.length) ∧
      MemoryBloomFilter.Put (stubLib 5) f [9] =
        ((List.range 2).foldlM
          (fun b i => BitSets.Set b (MemoryBloomFilter.probe (stubLib 5) f [9] i)) f.Bs).map
          (fun b => { f with Bs := b }) ∧
      (∃ f1, MemoryBloomFilter.Put (stubLib 5) f [9] = some f1) ∧
      (∃ b, MemoryBloomFilter.Has (stubLib 5) f [9] = some b) :=
  probe_below_capacity (stubLib 5) 1 2 (by decide) [[7]] [9]

/-- C9. On a Memory filter with a non-empty bit vector, `Put(data)` completes; every bit
that was 1 before it is 1 after it, and the number of 1 bits grows by at least 0 and at
most `K`. -/
theorem Put_only_turns_bits_on (lib : HashLib) (filter : MemoryBloomFilter) (data : Bytes)
    (hne : filter.Bs ≠ []) :
    ∃ f1, MemoryBloomFilter.Put lib filter data = some f1 ∧
      (∀ j, BitSets.IsSet filter.Bs j = some true → BitSets.IsSet f1.Bs j = some true) ∧
      BitSets.ones filter.Bs ≤ BitSets.ones f1.Bs ∧
      BitSets.ones f1.Bs ≤ BitSets.ones filter.Bs + filter.K := by
  obtain ⟨f1, hput, -, -, hbits⟩ := Put_spec lib filter data hne
  refine ⟨f1, hput, ?_, ?_⟩
  · intro j hj
    rw [hbits j, hj]
    simp
  · have hloop : MemoryBloomFilter.putLoop lib data filter.Bs.length (List.range filter.K)
        filter.Bs = some f1.Bs := by
      unfold MemoryBloomFilter.Put at hput
      cases hl : MemoryBloomFilter.putLoop lib data filter.Bs.length (List.range filter.K)
          filter.Bs with
      | none => simp only [hl] at hput; cases hput
      | some b =>
        simp only [hl, Option.some.injEq] at hput
        rw [← hput]
    have h := putLoop_ones lib data filter.Bs.length (List.range filter.K) filter.Bs f1.Bs hloop
    rw [List.length_range] at h
    exact h

/-- Witness of C9: a filter with `K = 2` and three words, bits 0 and 2 at 1 before the
call. -/
theorem Put_only_turns_bits_on_witness :
    ∃ f1, MemoryBloomFilter.Put (stubLib 5) { K := 2, Bs := [5, 0, 0] } [] = some f1 ∧
      (∀ j, BitSets.IsSet [5, 0, 0] j = some true → BitSets.IsSet f1.Bs j = some true) ∧
      BitSets.ones [5, 0, 0] ≤ BitSets.ones f1.Bs ∧
      BitSets.ones f1.Bs ≤ BitSets.ones [5, 0, 0] + 2 :=
  Put_only_turns_bits_on (stubLib 5) { K := 2, Bs := [5, 0, 0] } [] (by decide)

/-- C18. Under `Put`, `Has` and `Store` calls a Memory filter keeps its parameters: when a
run of such calls completes, `K` and the number of words of the vector are what they were
before the run; and on a filter with a non-empty vector, as every constructed filter is,
every such run completes. -/
theorem run_keeps_parameters (lib : HashLib) (filter : MemoryBloomFilter)
    (ops : List MemoryCall) :
    (∀ f1, MemoryBloomFilter.run lib filter ops = some f1 →
      f1.K = filter.K ∧ f1.Bs.length = filter.Bs.length) ∧
    (filter.Bs ≠ [] → ∃ f1, MemoryBloomFilter.run lib filter ops = some f1) :=
  ⟨fun f1 h => run_keeps lib ops filter f1 h, fun hne => run_total lib ops filter hne⟩

/-- Witness of C18: a fresh filter of 128 bits and 2 hash functions, with a `Has`, a `Put`,
a `Store` and a `Has`; the run completes, and `K` and the three words are kept. -/
theorem run_keeps_parameters_witness :
    (∃ f1, MemoryBloomFilter.run (stubLib 5) (NewMemoryBloomFilter 128 2)
      [MemoryCall.Has [1], MemoryCall.Put [1], MemoryCall.Store, MemoryCall.Has [1]] =
        some f1) ∧
    ∀ f1, MemoryBloomFilter.run (stubLib 5) (NewMemoryBloomFilter 128 2)
      [MemoryCall.Has [1], MemoryCall.Put [1], MemoryCall.Store, MemoryCall.Has [1]] =
        some f1 →
      f1.K = (NewMemoryBloomFilter 128 2).K ∧
        f1.Bs.length = (NewMemoryBloomFilter 128 2).Bs.length :=
  ⟨(run_keeps_parameters (stubLib 5) (NewMemoryBloomFilter 128 2)
      [MemoryCall.Has [1], MemoryCall.Put [1], MemoryCall.Store, MemoryCall.Has [1]]).2
      (by decide),
    (run_keeps_parameters (stubLib 5) (NewMemoryBloomFilter 128 2)
      [MemoryCall.Has [1], MemoryCall.Put [1], MemoryCall.Store, MemoryCall.Has [1]]).1⟩

/-- C19. Effective capacity of the Memory backend: on the filter built by
`NewMemoryBloomFilter(n, k)`, every run of `Put` calls completes and leaves every bit at
an index `≥ n/64 + 1` at 0 (inside the storage; outside it there is no bit), and every
index that `Put` or `Has` computes afterwards is below `n/64 + 1`. -/
theorem bits_beyond_word_count_stay_zero (lib : HashLib) (n k : Nat) (ds : List Bytes) :
    ∃ f, MemoryBloomFilter.putAll lib (NewMemoryBloomFilter n k) ds = some f ∧
      (∀ j, n / 64 + 1 ≤ j →
        BitSets.IsSet f.Bs j = if j / 64 < n / 64 + 1 then some false else none) ∧
      (∀ data i, MemoryBloomFilter.probe lib f data i < n / 64 + 1) := by
  have hne : (NewMemoryBloomFilter n k).Bs ≠ [] := NewBitSets_ne_nil n
  obtain ⟨f, hall, -, hlen, hbits⟩ := putAll_spec lib ds (NewMemoryBloomFilter n k) hne
  have hlen0 : (NewMemoryBloomFilter n k).Bs.length = n / 64 + 1 := NewBitSets_length n
  refine ⟨f, hall, ?_, ?_⟩
  · intro j hj
    rw [hbits j, if_neg]
    · exact IsSet_NewBitSets n j
    · rintro ⟨d, -, i, -, hji⟩
      have hlt : HashData lib d i % (NewMemoryBloomFilter n k).Bs.length < n / 64 + 1 := by
        rw [hlen0]
        exact Nat.mod_lt _ (Nat.succ_pos _)
      omega
  · intro data i
    unfold MemoryBloomFilter.probe
    rw [hlen, hlen0]
    exact Nat.mod_lt _ (Nat.succ_pos _)

/-- C20. A fresh Memory filter is empty: with `k ≥ 1`, `Has(data)` on the filter returned
by `NewMemoryBloomFilter(n, k)` returns false, for every `n` and every data. -/
theorem Has_fresh_filter (lib : HashLib) (n k : Nat) (hk : 1 ≤ k) (data : Bytes) :
    MemoryBloomFilter.Has lib (NewMemoryBloomFilter n k) data = some false := by
  have hne : (NewMemoryBloomFilter n k).Bs ≠ [] := NewBitSets_ne_nil n
  obtain ⟨b, hb, hiff⟩ := Has_spec lib (NewMemoryBloomFilter n k) data hne
  rw [hb]
  cases b with
  | false => rfl
  | true =>
    have h0 := hiff.mp rfl 0 hk
    have h1 : BitSets.IsSet (NewMemoryBloomFilter n k).Bs
        (HashData lib data 0 % (NewMemoryBloomFilter n k).Bs.length) =
        if HashData lib data 0 % (NewMemoryBloomFilter n k).Bs.length / 64 < n / 64 + 1
        then some false else none := IsSet_NewBitSets n _
    rw [h1] at h0
    split at h0 <;> cases h0

/-- Witness of C20: the filter of the test, 64 * 2^20 bits and 5 hash functions. -/
theorem Has_fresh_filter_witness :
    MemoryBloomFilter.Has (stubLib 5) (NewMemoryBloomFilter (64 * 2 ^ 20) 5) [114, 48] =
      some false :=
  Has_fresh_filter (stubLib 5) (64 * 2 ^ 20) 5 (by decide) [114, 48]

/-- C13. No false negatives in the Remote backend: with `n ≥ 1` and `k ≥ 1`, on a store
whose row under the key of the filter `{N = n, K = k}` has length `n`, `Put(d)` completes
(every `LSET` succeeds) and `Has(d)` then returns true; every further run of `Put` calls
completes as well, and `Has(d)` still returns true after it. -/
theorem redis_Has_after_Put (lib : HashLib) (n k : Nat) (hn : 1 ≤ n) (hk : 1 ≤ k)
    (store : RedisStore)
    (hrow : (store (RedisBloomFilter.redisKey { N := n, K := k })).length = n)
    (d : Bytes) (ds : List Bytes) :
    ∃ store1, RedisBloomFilter.Put lib store { N := n, K := k } d = some store1 ∧
      RedisBloomFilter.Has lib store1 { N := n, K := k } d = some true ∧
      ∃ store2, RedisBloomFilter.putAll lib { N := n, K := k } store1 ds = some store2 ∧
        RedisBloomFilter.Has lib store2 { N := n, K := k } d = some true := by
  have _ := hk
  have hpos : 0 < (RedisBloomFilter.mk n k).N := hn
  obtain ⟨store1, hput, hlen1, hslots, -⟩ :=
    redis_Put_spec lib store { N := n, K := k } d hpos hrow
  have hset1 : ∀ i, i < (RedisBloomFilter.mk n k).K →
      (store1 (RedisBloomFilter.redisKey { N := n, K := k }))[HashData lib d i %
        (RedisBloomFilter.mk n k).N]? = some "1" := by
    intro i hi
    rw [hslots, if_pos ⟨i, hi, rfl⟩]
  obtain ⟨store2, hall, hlen2, hkeep, -⟩ :=
    redis_putAll_spec lib { N := n, K := k } hpos ds store1 hlen1
  refine ⟨store1, hput, redis_Has_of_slots lib store1 _ d hpos hlen1 hset1, store2, hall, ?_⟩
  exact redis_Has_of_slots lib store2 _ d hpos hlen2 (fun i hi => hkeep _ (hset1 i hi))

/-- Witness of C13: a row of four empty slots, two hash functions, two further items. -/
theorem redis_Has_after_Put_witness :
    ∃ store1, RedisBloomFilter.Put (stubLib 5) (fun _ => ["", "", "", ""])
        { N := 4, K := 2 } [114] = some store1 ∧
      RedisBloomFilter.Has (stubLib 5) store1 { N := 4, K := 2 } [114] = some true ∧
      ∃ store2, RedisBloomFilter.putAll (stubLib 5) { N := 4, K := 2 } store1
          [[1], [2]] = some store2 ∧
        RedisBloomFilter.Has (stubLib 5) store2 { N := 4, K := 2 } [114] = some true :=
  redis_Has_after_Put (stubLib 5) 4 2 (by decide) (by decide) (fun _ => ["", "", "", ""])
    (by decide) [114] [[1], [2]]

/-- C14. Remote shared state: with `n ≥ 1` and `k ≥ 1`, let A be built by
`NewRedisBloomFilter` with `(n, k)` and put the items of any run; building B with the same
`(n, k)` on the store A left changes nothing in that store, `B.Has` is true for every item
A has put, and after a further `A.Put(d)`, `B.Has(d)` returns true. -/
theorem redis_shared_state (lib : HashLib) (store : RedisStore) (n k : Nat) (hn : 1 ≤ n)
    (hk : 1 ≤ k) (before : List Bytes) (d : Bytes) :
    ∃ s2, RedisBloomFilter.putAll lib (NewRedisBloomFilter store n k).2
        (NewRedisBloomFilter store n k).1 before = some s2 ∧
      (NewRedisBloomFilter s2 n k).1 = s2 ∧
      (NewRedisBloomFilter s2 n k).2 = (NewRedisBloomFilter store n k).2 ∧
      (∀ d1, d1 ∈ before → RedisBloomFilter.Has lib (NewRedisBloomFilter s2 n k).1
        (NewRedisBloomFilter s2 n k).2 d1 = some true) ∧
      ∃ s3, RedisBloomFilter.Put lib (NewRedisBloomFilter s2 n k).1
          (NewRedisBloomFilter store n k).2 d = some s3 ∧
        RedisBloomFilter.Has lib s3 (NewRedisBloomFilter s2 n k).2 d = some true := by
  have _ := hk
  obtain ⟨hA, hsame, hreset⟩ := NewRedisBloomFilter_spec store n k
  have hpos : 0 < (RedisBloomFilter.mk n k).N := hn
  have hlen1 : ((NewRedisBloomFilter store n k).1
      (RedisBloomFilter.redisKey { N := n, K := k })).length = n := by
    by_cases h : (store (RedisBloomFilter.redisKey { N := n, K := k })).length = n
    · rw [hsame h]; exact h
    · rw [hreset h, List.length_replicate]
  rw [hA]
  obtain ⟨s2, hall, hlen2, -, hitems⟩ :=
    redis_putAll_spec lib { N := n, K := k } hpos before _ hlen1
  obtain ⟨hB, hsame2, -⟩ := NewRedisBloomFilter_spec s2 n k
  have hs2 : (NewRedisBloomFilter s2 n k).1 = s2 := hsame2 hlen2
  obtain ⟨s3, hput, hlen3, hslots, -⟩ := redis_Put_spec lib s2 { N := n, K := k } d hpos hlen2
  refine ⟨s2, hall, hs2, hB, ?_, s3, ?_, ?_⟩
  · intro d1 hd1
    rw [hs2, hB]
    exact redis_Has_of_slots lib s2 _ d1 hpos hlen2 (hitems d1 hd1)
  · rw [hs2]
    exact hput
  · rw [hB]
    apply redis_Has_of_slots lib s3 _ d hpos hlen3
    intro i hi
    rw [hslots, if_pos ⟨i, hi, rfl⟩]

/-- Witness of C14: on a store with no list, `(n, k) = (4, 2)`, A puts one item before B
is built. -/
theorem redis_shared_state_witness :
    ∃ s2, RedisBloomFilter.putAll (stubLib 5) (NewRedisBloomFilter emptyStore 4 2).2
        (NewRedisBloomFilter emptyStore 4 2).1 [[7]] = some s2 ∧
      (NewRedisBloomFilter s2 4 2).1 = s2 ∧
      (NewRedisBloomFilter s2 4 2).2 = (NewRedisBloomFilter emptyStore 4 2).2 ∧
      (∀ d1, d1 ∈ [([7] : Bytes)] → RedisBloomFilter.Has (stubLib 5)
        (NewRedisBloomFilter s2 4 2).1 (NewRedisBloomFilter s2 4 2).2 d1 = some true) ∧
      ∃ s3, RedisBloomFilter.Put (stubLib 5) (NewRedisBloomFilter s2 4 2).1
          (NewRedisBloomFilter emptyStore 4 2).2 [114] = some s3 ∧
        RedisBloomFilter.Has (stubLib 5) s3 (NewRedisBloomFilter s2 4 2).2 [114] = some true :=
  redis_shared_state (stubLib 5) emptyStore 4 2 (by decide) (by decide) [[7]] [114]

/-- C15. Remote row length and reset on mismatch: with `n ≥ 1`, whatever the store held,
after `NewRedisBloomFilter(cli, n, k)` the row under the key of the filter has length `n`;
and when the length found there differed from `n` (a key without a list has length 0),
the new row is `n` empty strings, so that `Has` returns false for every data when
`k ≥ 1`. -/
theorem NewRedisBloomFilter_row (lib : HashLib) (store : RedisStore) (n k : Nat)
    (hn : 1 ≤ n) :
    ((NewRedisBloomFilter store n k).1
      (NewRedisBloomFilter store n k).2.redisKey).length = n ∧
    ((store (RedisBloomFilter.redisKey { N := n, K := k })).length ≠ n →
      (NewRedisBloomFilter store n k).1 (NewRedisBloomFilter store n k).2.redisKey =
        List.replicate n "" ∧
      (1 ≤ k → ∀ data, RedisBloomFilter.Has lib (NewRedisBloomFilter store n k).1
        (NewRedisBloomFilter store n k).2 data = some false)) := by
  obtain ⟨hA, hsame, hreset⟩ := NewRedisBloomFilter_spec store n k
  have hpos : 0 < (RedisBloomFilter.mk n k).N := hn
  rw [hA]
  constructor
  · by_cases h : (store (RedisBloomFilter.redisKey { N := n, K := k })).length = n
    · rw [hsame h]; exact h
    · rw [hreset h, List.length_replicate]
  · intro h
    refine ⟨hreset h, ?_⟩
    intro hk data
    have hlen : ((NewRedisBloomFilter store n k).1
        (RedisBloomFilter.redisKey { N := n, K := k })).length =
        (RedisBloomFilter.mk n k).N := by
      rw [hreset h, List.length_replicate]
    obtain ⟨b, hb, hiff⟩ :=
      redis_Has_spec lib (NewRedisBloomFilter store n k).1 { N := n, K := k } data hpos hlen
    rw [hb]
    cases b with
    | false => rfl
    | true =>
      have h0 := hiff.mp rfl 0 hk
      rw [hreset h, List.getElem?_replicate] at h0
      split at h0
      · exact absurd (Option.some.inj h0) (by decide)
      · cases h0

/-- Witness of C15: a store whose rows all have three slots set, and a filter of two
slots: the row is reset. -/
theorem NewRedisBloomFilter_row_witness :
    ((NewRedisBloomFilter (fun _ => ["1", "1", "1"]) 2 1).1
      (NewRedisBloomFilter (fun _ => ["1", "1", "1"]) 2 1).2.redisKey).length = 2 ∧
    (NewRedisBloomFilter (fun _ => ["1", "1", "1"]) 2 1).1
      (NewRedisBloomFilter (fun _ => ["1", "1", "1"]) 2 1).2.redisKey = ["", ""] ∧
    RedisBloomFilter.Has (stubLib 5) (NewRedisBloomFilter (fun _ => ["1", "1", "1"]) 2 1).1
      (NewRedisBloomFilter (fun _ => ["1", "1", "1"]) 2 1).2 [114] = some false :=
  ⟨(NewRedisBloomFilter_row (stubLib 5) (fun _ => ["1", "1", "1"]) 2 1 (by decide)).1,
    ((NewRedisBloomFilter_row (stubLib 5) (fun _ => ["1", "1", "1"]) 2 1 (by decide)).2
      (by decide)).1,
    ((NewRedisBloomFilter_row (stubLib 5) (fun _ => ["1", "1", "1"]) 2 1 (by decide)).2
      (by decide)).2 (by decide) [114]⟩

/-- C16. The key of the Remote backend is injective in `(n, k)`: the keys of the filters
`{N = n1, K = k1}` and `{N = n2, K = k2}` are equal if and only if `n1 = n2` and
`k1 = k2`. -/
theorem redisKey_eq_iff (n1 k1 n2 k2 : Nat) :
    RedisBloomFilter.redisKey { N := n1, K := k1 } =
        RedisBloomFilter.redisKey { N := n2, K := k2 } ↔
      n1 = n2 ∧ k1 = k2 := by
  constructor
  · intro h
    have hdata := congrArg String.data h
    rw [redisKey_data, redisKey_data] at hdata
    have h1 := List.append_cancel_left hdata
    obtain ⟨hn, hk⟩ := append_cons_split ':' _ _ _ _ (repr_spec n1).2 (repr_spec n2).2 h1
    have hk1 : (Nat.repr k1).data = (Nat.repr k2).data := by
      simpa using hk
    have e1 := congrArg decimalVal hn
    have e2 := congrArg decimalVal hk1
    rw [(repr_spec n1).1, (repr_spec n2).1] at e1
    rw [(repr_spec k1).1, (repr_spec k2).1] at e2
    exact ⟨e1, e2⟩
  · rintro ⟨hn, hk⟩
    rw [hn, hk]

/-- C11. Persistence round trip of the File backend, with the persistence format modelled
from the spec. For `k` a Go `uint`, that is below `2 ^ 64`: every run of `Put` calls on
`NewFileBloomFilter(filename, n, k)` reaches a state `f`; when `os.Create` succeeds,
`Store()` completes, and `ReloadFileBloomFilter(filename)` on the files it leaves returns
a filter with the same `K` and the same words; its `Has` agrees with the one of `f` on
every data and is true for every item of the run. -/
theorem Store_Reload_round_trip (lib : HashLib) (create notExist : FileSystem → String → Bool)
    (fs : FileSystem) (filename : String) (n k : Nat) (hk : k < 2 ^ 64) (ds : List Bytes)
    (hcreate : create fs filename = true) :
    ∃ f fs1 g m gm,
      FileBloomFilter.putAll lib (NewFileBloomFilter filename n k) ds = some f ∧
      FileBloomFilter.Store (specFileLib create notExist) fs f = some fs1 ∧
      ReloadFileBloomFilter (specFileLib create notExist) fs1 filename = some g ∧
      f.MemoryBloomFilter = some m ∧ g.MemoryBloomFilter = some gm ∧
      gm.K = m.K ∧ gm.K = k ∧ gm.Bs = m.Bs ∧
      (∀ data, FileBloomFilter.Has lib g data = FileBloomFilter.Has lib f data) ∧
      (∀ d, d ∈ ds → FileBloomFilter.Has lib g d = some true) := by
  have hne : (NewMemoryBloomFilter n k).Bs ≠ [] := NewBitSets_ne_nil n
  obtain ⟨m, hm, hK, -, -⟩ := putAll_spec lib ds (NewMemoryBloomFilter n k) hne
  have hws : ∀ w ∈ m.Bs, w < 2 ^ 64 :=
    putAll_words_lt lib ds (NewMemoryBloomFilter n k) m hm (NewBitSets_words_lt n)
  have hKlt : m.K < 2 ^ 64 := by
    rw [hK]
    exact hk
  have hput : FileBloomFilter.putAll lib (NewFileBloomFilter filename n k) ds =
      some { MemoryBloomFilter := some m, Filename := filename } := by
    have hfile := file_putAll_eq lib filename ds (NewMemoryBloomFilter n k)
    rw [hm] at hfile
    exact hfile
  have hunzip : rleDecode (rleEncode (serialize m)) = some (serialize m) :=
    rleDecode_rleEncode _
  have hread : (specFileLib create notExist).NewReader (rleEncode (serialize m)) = true := by
    show (rleDecode (rleEncode (serialize m))).isSome = true
    rw [hunzip]
    rfl
  have hdec : ((specFileLib create notExist).Decode (rleEncode (serialize m))
      { MemoryBloomFilter := none, Filename := "" }).1.MemoryBloomFilter =
      (FileBloomFilter.mk (some m) filename).MemoryBloomFilter := by
    show (specDecode (rleEncode (serialize m))
      { MemoryBloomFilter := none, Filename := "" }).1.MemoryBloomFilter = some m
    unfold specDecode
    rw [hunzip]
    simp only [deserialize_serialize m hKlt hws]
  obtain ⟨fs1, g, m1, gm, h1, h2, h3, h4, h5, h6, h7, h8, h9⟩ :=
    reload_of_decode lib (specFileLib create notExist) fs filename n k ds
      (rleEncode (serialize m)) { MemoryBloomFilter := some m, Filename := filename }
      hput hcreate rfl hread hdec
  exact ⟨_, fs1, g, m1, gm, hput, h1, h2, h3, h4, h5, h6, h7, h8, h9⟩

/-- Witness of C11: the filter of 128 bits and 2 hash functions after one `Put`, stored to
and reloaded from `bl.gob` on a disk without files. -/
theorem Store_Reload_round_trip_witness :
    ∃ f fs1 g m gm,
      FileBloomFilter.putAll (stubLib 5) (NewFileBloomFilter "bl.gob" 128 2) [[114]] =
        some f ∧
      FileBloomFilter.Store (specFileLib (fun _ _ => true) (fun _ _ => false))
        (fun _ => none) f = some fs1 ∧
      ReloadFileBloomFilter (specFileLib (fun _ _ => true) (fun _ _ => false)) fs1 "bl.gob" =
        some g ∧
      f.MemoryBloomFilter = some m ∧ g.MemoryBloomFilter = some gm ∧
      gm.K = m.K ∧ gm.K = 2 ∧ gm.Bs = m.Bs ∧
      (∀ data, FileBloomFilter.Has (stubLib 5) g data =
        FileBloomFilter.Has (stubLib 5) f data) ∧
      (∀ d, d ∈ [([114] : Bytes)] → FileBloomFilter.Has (stubLib 5) g d = some true) :=
  Store_Reload_round_trip (stubLib 5) (fun _ _ => true) (fun _ _ => false) (fun _ => none)
    "bl.gob" 128 2 (by decide) [[114]] rfl

/-- C12, at the failing input. The file `bl.gob` opens and its gzip header is accepted,
but `Decode` reports an error and leaves its target untouched: `ReloadFileBloomFilter`
returns the zero-valued filter, with no Memory filter in it, where `reStore` on the same
file ends in `log.Fatalf`. -/
theorem Reload_returns_filter_on_decode_error :
    ((stubFileLib { MemoryBloomFilter := none, Filename := "" }).Decode [1, 2, 3]
      { MemoryBloomFilter := none, Filename := "" }).2 = false ∧
    ReloadFileBloomFilter (stubFileLib { MemoryBloomFilter := none, Filename := "" })
      (fun _ => some [1, 2, 3]) "bl.gob" =
        some { MemoryBloomFilter := none, Filename := "" } ∧
    FileBloomFilter.reStore (stubFileLib { MemoryBloomFilter := none, Filename := "" })
      (fun _ => some [1, 2, 3]) { MemoryBloomFilter := none, Filename := "bl.gob" } = none := by
  decide

end Bloomtests
